import Mathlib

/-!
Verification of the Catalog Synchronization Engine
(`.github/scripts/update_source.py` and `.github/scripts/utils.py`).

Python strings are embedded as `List Char` (`Str`); every Python string
primitive used by the scripts is re-implemented below by structural
recursion so that all definitions evaluate inside the kernel.  Dictionary
keys that may be absent are modelled as `Option` fields when presence is
observable (`permissions`), and as `""`-defaulted fields when the scripts
only test truthiness.  Network and file-system effects are modelled by an
explicit `Oracle` record of fixed responses, matching the scripts' use of
a fixed upstream state during one run.
-/

namespace SrcSpec

/-- Embedded Python string: a list of characters. -/
abbrev Str := List Char

/-- Python `str.lower()` (ASCII case mapping, as used by the scripts). -/
def py_lower (s : Str) : Str := s.map Char.toLower

/-- Python `str.startswith(p)`. -/
def py_starts (s p : Str) : Bool := p.isPrefixOf s

/-- Python `str.endswith(p)`. -/
def py_ends (s p : Str) : Bool := p.isSuffixOf s

/-- Python `needle in hay` substring test. -/
def py_contains (hay needle : Str) : Bool :=
  match hay with
  | [] => needle.isEmpty
  | _ :: t => needle.isPrefixOf hay || py_contains t needle

/-- Python `str.strip()`: drop leading and trailing whitespace. -/
def py_strip (s : Str) : Str :=
  ((s.dropWhile Char.isWhitespace).reverse.dropWhile Char.isWhitespace).reverse

/-- One fuelled step of Python `str.replace(pat, "")`; fuel bounds the scan. -/
def py_remove_go (pat : Str) : Nat → Str → Str
  | _, [] => []
  | 0, l => l
  | fuel + 1, c :: t =>
    if pat.isPrefixOf (c :: t) then py_remove_go pat fuel (List.drop (pat.length - 1) t)
    else c :: py_remove_go pat fuel t

/-- Python `s.replace(pat, "")` (remove all occurrences, left to right;
an empty pattern leaves the string unchanged, as `s.replace("", "") == s`). -/
def py_remove (s pat : Str) : Str :=
  if pat.isEmpty then s else py_remove_go pat s.length s

/-- Python `s.split("/")[-1]`: the segment after the last slash. -/
def last_slash_seg (cur : Str) : Str → Str
  | [] => cur.reverse
  | c :: t => if c = '/' then last_slash_seg [] t else last_slash_seg (c :: cur) t

/-- Python `s.split("/")[0]`: the segment before the first slash. -/
def first_slash_seg : Str → Str
  | [] => []
  | c :: t => if c = '/' then [] else c :: first_slash_seg t

/-- Python string `<=` (lexicographic on code points). -/
def str_le : Str → Str → Bool
  | [], _ => true
  | _ :: _, [] => false
  | a :: as_, b :: bs => if a < b then true else if b < a then false else str_le as_ bs

/-- Python string `<` (lexicographic on code points). -/
def str_lt (a b : Str) : Bool := !str_le b a

/-- Stable insertion of `x` into a list sorted by `le`: `x` is placed before
the first element that does not strictly precede it, so equal keys keep
their original relative order (Python's `sorted` is stable). -/
def stable_insert (le : α → α → Bool) (x : α) : List α → List α
  | [] => [x]
  | y :: ys => if le y x && !le x y then y :: stable_insert le x ys else x :: y :: ys

/-- Stable sort by `le` (insertion sort).  Python's `sorted(key=...)` and
`list.sort(key=...)` are stable sorts; any two stable sorts under the same
total preorder agree, so this is the behaviour of the scripts' sorts. -/
def py_sorted (le : α → α → Bool) : List α → List α
  | [] => []
  | x :: xs => stable_insert le x (py_sorted le xs)

/-- Modelled from the spec: `normalize_name` is imported from `utils` in
`update_source.py` but its definition is absent from the sources given;
spec §4.1: lower-case and collapse all separator characters (spaces,
hyphens, underscores, punctuation), keeping only alphanumerics. -/
def normalize_name (s : Str) : Str := (py_lower s).filter Char.isAlphanum

theorem stable_insert_perm (le : α → α → Bool) (x : α) (l : List α) :
    (stable_insert le x l).Perm (x :: l) := by
  induction l with
  | nil => simp [stable_insert]
  | cons y ys ih =>
    simp only [stable_insert]
    split
    · exact (ih.cons y).trans (List.Perm.swap x y ys)
    · exact List.Perm.refl _

theorem py_sorted_perm (le : α → α → Bool) (l : List α) :
    (py_sorted le l).Perm l := by
  induction l with
  | nil => simp [py_sorted]
  | cons x xs ih => exact (stable_insert_perm le x (py_sorted le xs)).trans (ih.cons x)

theorem stable_insert_pairwise (le : α → α → Bool)
    (total : ∀ a b, le a b = true ∨ le b a = true)
    (tr : ∀ a b c, le a b = true → le b c = true → le a c = true)
    (x : α) (l : List α) (h : l.Pairwise (fun a b => le a b = true)) :
    (stable_insert le x l).Pairwise (fun a b => le a b = true) := by
  induction l with
  | nil => simp [stable_insert]
  | cons y ys ih =>
    rw [List.pairwise_cons] at h
    obtain ⟨h1, h2⟩ := h
    simp only [stable_insert]
    split
    · rename_i hcond
      rw [Bool.and_eq_true, Bool.not_eq_true'] at hcond
      refine List.pairwise_cons.mpr ⟨?_, ih h2⟩
      intro z hz
      rcases List.mem_cons.mp (((stable_insert_perm le x ys).mem_iff).mp hz) with hz1 | hz2
      · exact hz1 ▸ hcond.1
      · exact h1 z hz2
    · rename_i hcond
      rw [Bool.and_eq_true, Bool.not_eq_true'] at hcond
      push_neg at hcond
      have hxy : le x y = true := by
        rcases total x y with h3 | h3
        · exact h3
        · by_cases h4 : le x y = true
          · exact h4
          · exact absurd (hcond h3) (by simp [h4])
      refine List.pairwise_cons.mpr ⟨?_, List.pairwise_cons.mpr ⟨h1, h2⟩⟩
      intro z hz
      rcases List.mem_cons.mp hz with hz1 | hz2
      · exact hz1 ▸ hxy
      · exact tr x y z hxy (h1 z hz2)

theorem py_sorted_pairwise (le : α → α → Bool)
    (total : ∀ a b, le a b = true ∨ le b a = true)
    (tr : ∀ a b c, le a b = true → le b c = true → le a c = true)
    (l : List α) : (py_sorted le l).Pairwise (fun a b => le a b = true) := by
  induction l with
  | nil => simp [py_sorted]
  | cons x xs ih => exact stable_insert_pairwise le total tr x _ ih

theorem py_sorted_head (le : α → α → Bool)
    (total : ∀ a b, le a b = true ∨ le b a = true)
    (tr : ∀ a b c, le a b = true → le b c = true → le a c = true)
    (l : List α) (h : l ≠ []) :
    ∃ x t, py_sorted le l = x :: t ∧ x ∈ l ∧ ∀ y ∈ l, le x y = true := by
  cases hs : py_sorted le l with
  | nil =>
    have hp := py_sorted_perm le l
    rw [hs] at hp
    exact absurd hp.symm.eq_nil h
  | cons x t =>
    refine ⟨x, t, rfl, ?_, ?_⟩
    · exact (py_sorted_perm le l).mem_iff.mp (hs ▸ List.mem_cons_self x t)
    · intro y hy
      have hperm := py_sorted_perm le l
      rw [hs] at hperm
      rcases List.mem_cons.mp (hperm.symm.subset hy) with h1 | h2
      · subst h1
        rcases total y y with h3 | h3 <;> exact h3
      · have hp := py_sorted_pairwise le total tr l
        rw [hs, List.pairwise_cons] at hp
        exact hp.1 y h2

theorem stable_insert_of_head (le : α → α → Bool) (x y : α) (ys : List α)
    (hxy : le x y = true) : stable_insert le x (y :: ys) = x :: y :: ys := by
  simp [stable_insert, hxy]

theorem py_sorted_of_pairwise (le : α → α → Bool) (l : List α)
    (h : l.Pairwise (fun a b => le a b = true)) : py_sorted le l = l := by
  induction l with
  | nil => rfl
  | cons x xs ih =>
    rw [List.pairwise_cons] at h
    obtain ⟨h1, h2⟩ := h
    show stable_insert le x (py_sorted le xs) = x :: xs
    rw [ih h2]
    cases xs with
    | nil => rfl
    | cons y ys => exact stable_insert_of_head le x y ys (h1 y (List.mem_cons_self y ys))

theorem str_le_rfl (a : Str) : str_le a a = true := by
  induction a with
  | nil => rfl
  | cons c cs ih => simp [str_le, lt_irrefl, ih]

theorem str_le_total (a b : Str) : str_le a b = true ∨ str_le b a = true := by
  induction a generalizing b with
  | nil => exact Or.inl rfl
  | cons c cs ih =>
    cases b with
    | nil => exact Or.inr rfl
    | cons d ds =>
      rcases lt_trichotomy c d with h | h | h
      · exact Or.inl (by simp [str_le, h])
      · subst h
        rcases ih ds with h2 | h2
        · exact Or.inl (by simp [str_le, lt_irrefl, h2])
        · exact Or.inr (by simp [str_le, lt_irrefl, h2])
      · exact Or.inr (by simp [str_le, h])

theorem str_le_trans (a b c : Str) (h1 : str_le a b = true) (h2 : str_le b c = true) :
    str_le a c = true := by
  induction a generalizing b c with
  | nil => rfl
  | cons x xs ih =>
    cases b with
    | nil => simp [str_le] at h1
    | cons y ys =>
      cases c with
      | nil => simp [str_le] at h2
      | cons z zs =>
        simp only [str_le] at h1 h2 ⊢
        rcases lt_trichotomy x y with hxy | hxy | hxy
        · rcases lt_trichotomy y z with hyz | hyz | hyz
          · simp [lt_trans hxy hyz]
          · subst hyz; simp [hxy]
          · simp [hyz, asymm hyz] at h2
        · subst hxy
          rcases lt_trichotomy x z with hxz | hxz | hxz
          · simp [hxz]
          · subst hxz
            simp only [lt_irrefl, if_false] at h1 h2 ⊢
            exact ih ys zs h1 h2
          · simp [hxz, asymm hxz] at h2
        · simp [hxy, asymm hxy] at h1

/-- One release asset. -/
structure ReleaseAsset where
  name : Str
  browser_download_url : Str
  size : Nat
deriving DecidableEq

/-- One upstream release as returned by the releases endpoint.
`published_at` is the ISO-8601 timestamp; a missing or null value is
modelled as `""`, matching `r.get('published_at') or ''`. -/
structure Release where
  draft : Bool
  prerelease : Bool
  published_at : Str
  tag_name : Str
  body : Option Str
  assets : List ReleaseAsset
deriving DecidableEq

/-- `get_date` from `utils.GitHubClient.get_latest_release`. -/
def get_date (r : Release) : Str := r.published_at

/-- Sort key relation used for `sorted(..., key=get_date, reverse=True)`:
`a` precedes `b` when `get_date b <= get_date a` (descending, ties stable). -/
def date_ge (a b : Release) : Bool := str_le (get_date b) (get_date a)

/-- The `prefer_pre_release` arm of `get_latest_release`:
return the newest pre-release unless a newest stable release is strictly
newer; with no pre-release fall back to the newest stable release. -/
def select_release_pre (stable pre : List Release) : Option Release :=
  match py_sorted date_ge pre, py_sorted date_ge stable with
  | p :: _, [] => some p
  | p :: _, s :: _ => if str_le (get_date s) (get_date p) then some p else some s
  | [], s :: _ => some s
  | [], [] => none

/-- Release selection logic of `utils.GitHubClient.get_latest_release`,
starting from the parsed release list.  `rvalid pat` models whether
`re.compile(pat)` succeeds and `rsearch pat s` models `pattern.search(s)`. -/
def get_latest_release_from (releases : List Release) (prefer_pre_release : Bool)
    (tag_regex : Option Str) (rvalid : Str → Bool) (rsearch : Str → Str → Bool) :
    Option Release :=
  let active := releases.filter (fun r => !r.draft)
  if active.isEmpty then none else
  let active2 : List Release := match tag_regex with
    | some pat => if !pat.isEmpty && rvalid pat then
        active.filter (fun r => rsearch pat r.tag_name) else active
    | none => active
  if active2.isEmpty then none else
  let stable := active2.filter (fun r => !r.prerelease)
  let pre := active2.filter (fun r => r.prerelease)
  if prefer_pre_release then select_release_pre stable pre
  else
    if !stable.isEmpty then (py_sorted date_ge stable).head?
    else (py_sorted date_ge active2).head?

theorem date_ge_total (a b : Release) : date_ge a b = true ∨ date_ge b a = true := by
  rcases str_le_total (get_date b) (get_date a) with h | h
  · exact Or.inl h
  · exact Or.inr h

theorem date_ge_trans (a b c : Release) (h1 : date_ge a b = true) (h2 : date_ge b c = true) :
    date_ge a c = true :=
  str_le_trans (get_date c) (get_date b) (get_date a) h2 h1

theorem get_latest_pre_eq (rs : List Release) (rvalid : Str → Bool)
    (rsearch : Str → Str → Bool) (hnd : ∀ r ∈ rs, r.draft = false) (hne : rs ≠ []) :
    get_latest_release_from rs true none rvalid rsearch
      = select_release_pre (rs.filter (fun r => !r.prerelease))
          (rs.filter (fun r => r.prerelease)) := by
  have hact : rs.filter (fun r => !r.draft) = rs :=
    List.filter_eq_self.mpr (fun a ha => by rw [hnd a ha]; rfl)
  have hemp : rs.isEmpty = false := by
    cases rs with
    | nil => exact absurd rfl hne
    | cons a l => rfl
  simp [get_latest_release_from, hact, hemp]

theorem select_release_pre_of_pre_ne (stable pre : List Release) (hne : pre ≠ []) :
    ∃ c, select_release_pre stable pre = some c ∧
      ((∃ s ∈ stable, ∀ p ∈ pre, str_le (get_date s) (get_date p) = false) →
        c ∈ stable ∧ ∀ s ∈ stable, str_le (get_date s) (get_date c) = true) ∧
      ((∀ s ∈ stable, ∃ p ∈ pre, str_le (get_date s) (get_date p) = true) →
        c ∈ pre ∧ ∀ p ∈ pre, str_le (get_date p) (get_date c) = true) := by
  obtain ⟨p, tp, hps, hpmem, hpmax⟩ :=
    py_sorted_head date_ge date_ge_total date_ge_trans pre hne
  by_cases hstab : stable = []
  · subst hstab
    refine ⟨p, by simp [select_release_pre, hps, py_sorted], ?_, ?_⟩
    · rintro ⟨s, hs, -⟩
      cases hs
    · intro _
      exact ⟨hpmem, fun q hq => hpmax q hq⟩
  · obtain ⟨s, ts, hss, hsmem, hsmax⟩ :=
      py_sorted_head date_ge date_ge_total date_ge_trans stable hstab
    by_cases hcond : str_le (get_date s) (get_date p) = true
    · refine ⟨p, by simp [select_release_pre, hps, hss, hcond], ?_, ?_⟩
      · rintro ⟨sd, hsd, hdom⟩
        have h1 : str_le (get_date sd) (get_date s) = true := hsmax sd hsd
        have h2 : str_le (get_date sd) (get_date p) = true :=
          str_le_trans _ _ _ h1 hcond
        exact absurd h2 (by simp [hdom p hpmem])
      · intro _
        exact ⟨hpmem, fun q hq => hpmax q hq⟩
    · refine ⟨s, ?_, ?_, ?_⟩
      · simp [select_release_pre, hps, hss]
        intro h
        exact absurd h hcond
      · intro _
        exact ⟨hsmem, fun sd hsd => hsmax sd hsd⟩
      · intro hB
        obtain ⟨p1, hp1, hle⟩ := hB s hsmem
        have h2 : str_le (get_date s) (get_date p) = true :=
          str_le_trans _ _ _ hle (hpmax p1 hp1)
        exact absurd h2 hcond

/-- A stable release and a pre-release with the same `published_at` string. -/
def rel_stable_eq : Release :=
  { draft := false, prerelease := false,
    published_at := ("2024-01-01T00:00:00Z".data), tag_name := ("v1.0".data),
    body := none, assets := [] }

/-- The pre-release companion of `rel_stable_eq` (same `published_at`). -/
def rel_pre_eq : Release :=
  { draft := false, prerelease := true,
    published_at := ("2024-01-01T00:00:00Z".data), tag_name := ("v1.1-beta".data),
    body := none, assets := [] }

/-- A stable release published 2024-07-01. -/
def rel_stable_jul : Release :=
  { draft := false, prerelease := false,
    published_at := ("2024-07-01T00:00:00Z".data), tag_name := ("v2.0".data),
    body := none, assets := [] }

/-- A pre-release published 2024-06-01. -/
def rel_pre_jun : Release :=
  { draft := false, prerelease := true,
    published_at := ("2024-06-01T00:00:00Z".data), tag_name := ("v2.1-beta".data),
    body := none, assets := [] }

/-- C1 counterexample: with `preferPreRelease=true` and a stable release whose
`publishedAt` string equals the most recent pre-release's, `get_latest_release`
returns the PRE-release, not the stable release as the claim states: the code
keeps the pre-release whenever `pre >= stable`, so the stable release wins only
when its date is strictly greater. -/
theorem c1_release_resolver_counterexample :
    get_latest_release_from [rel_stable_eq, rel_pre_eq] true none
        (fun _ => false) (fun _ _ => false) = some rel_pre_eq ∧
      rel_pre_eq.prerelease = true ∧ rel_stable_eq.prerelease = false ∧
      get_date rel_stable_eq = get_date rel_pre_eq ∧ rel_pre_eq ≠ rel_stable_eq := by
  decide

/-- C1 (amended): for every list of non-draft releases with
`preferPreRelease=true` and at least one pre-release, the resolver returns the
most recent pre-release unless a stable release exists whose `publishedAt` is
STRICTLY greater than every pre-release's, in which case it returns the most
recent stable release; on equal dates the pre-release is returned. -/
theorem c1_release_resolver (rs : List Release) (rvalid : Str → Bool)
    (rsearch : Str → Str → Bool)
    (hnd : ∀ r ∈ rs, r.draft = false)
    (p0 : Release) (hp0 : p0 ∈ rs) (hp0pre : p0.prerelease = true) :
    ∃ c, get_latest_release_from rs true none rvalid rsearch = some c ∧
      ((∃ s ∈ rs, s.prerelease = false ∧
          ∀ p ∈ rs, p.prerelease = true → str_le (get_date s) (get_date p) = false) →
        c.prerelease = false ∧ c ∈ rs ∧
          ∀ s ∈ rs, s.prerelease = false → str_le (get_date s) (get_date c) = true) ∧
      ((∀ s ∈ rs, s.prerelease = false →
          ∃ p ∈ rs, p.prerelease = true ∧ str_le (get_date s) (get_date p) = true) →
        c.prerelease = true ∧ c ∈ rs ∧
          ∀ p ∈ rs, p.prerelease = true → str_le (get_date p) (get_date c) = true) := by
  have hne : rs ≠ [] := List.ne_nil_of_mem hp0
  rw [get_latest_pre_eq rs rvalid rsearch hnd hne]
  have hprene : rs.filter (fun r => r.prerelease) ≠ [] :=
    List.ne_nil_of_mem (List.mem_filter.mpr ⟨hp0, hp0pre⟩)
  obtain ⟨c, hc, hA, hB⟩ := select_release_pre_of_pre_ne _ _ hprene
  refine ⟨c, hc, ?_, ?_⟩
  · rintro ⟨s, hs, hsnp, hdom⟩
    have hsf : s ∈ rs.filter (fun r => !r.prerelease) :=
      List.mem_filter.mpr ⟨hs, by rw [hsnp]; rfl⟩
    obtain ⟨hcmem, hcmax⟩ := hA ⟨s, hsf, fun p hp => by
      obtain ⟨hp1, hp2⟩ := List.mem_filter.mp hp
      exact hdom p hp1 hp2⟩
    obtain ⟨hcrs, hcnp⟩ := List.mem_filter.mp hcmem
    refine ⟨by simpa using hcnp, hcrs, fun s1 hs1 hs1np => ?_⟩
    exact hcmax s1 (List.mem_filter.mpr ⟨hs1, by rw [hs1np]; rfl⟩)
  · intro hall
    obtain ⟨hcmem, hcmax⟩ := hB (fun s hsf => by
      obtain ⟨hs1, hs2⟩ := List.mem_filter.mp hsf
      obtain ⟨p, hp, hppre, hple⟩ := hall s hs1 (by simpa using hs2)
      exact ⟨p, List.mem_filter.mpr ⟨hp, hppre⟩, hple⟩)
    obtain ⟨hcrs, hcpre⟩ := List.mem_filter.mp hcmem
    refine ⟨hcpre, hcrs, fun p1 hp1 hp1pre => ?_⟩
    exact hcmax p1 (List.mem_filter.mpr ⟨hp1, hp1pre⟩)

/-- C1 witness: concrete instance with a stable release published 2024-07-01
strictly after the pre-release published 2024-06-01; the resolver returns the
stable release. -/
theorem c1_release_resolver_witness :
    ∃ c, get_latest_release_from [rel_stable_jul, rel_pre_jun] true none
        (fun _ => false) (fun _ _ => false) = some c ∧
      c.prerelease = false ∧ c ∈ [rel_stable_jul, rel_pre_jun] ∧
      ∀ s ∈ [rel_stable_jul, rel_pre_jun], s.prerelease = false →
        str_le (get_date s) (get_date c) = true := by
  obtain ⟨c, hc, hA, hB⟩ :=
    c1_release_resolver [rel_stable_jul, rel_pre_jun] (fun _ => false)
      (fun _ _ => false) (by decide) rel_pre_jun (by decide) (by decide)
  obtain ⟨h1, h2, h3⟩ := hA (by decide)
  exact ⟨c, hc, h1, h2, h3⟩

/-- C3: the spec-modelled `normalize_name` sends "UTM-HV", "UTM HV" and
"UTM_HV" to the same canonical form "utmhv" (lower-cased, separators
collapsed); it is a total function on strings. -/
theorem c3_normalize_name :
    normalize_name ("UTM-HV".data) = normalize_name ("UTM HV".data) ∧
    normalize_name ("UTM HV".data) = normalize_name ("UTM_HV".data) ∧
    normalize_name ("UTM-HV".data) = ("utmhv".data) := by
  decide

/-- Flavor keywords checked by `apply_bundle_id_suffix`, in source order. -/
def suffix_keywords : List Str :=
  [("nightly".data), ("beta".data), ("alpha".data), ("dev".data), ("test".data),
   ("experimental".data), ("pre-release".data), ("jit".data), ("sidestore".data)]

/-- Append `"." ++ s` to `bundle_id` unless it already ends with it
(the repeated `if not bundle_id.endswith(f".{s}")` step of
`apply_bundle_id_suffix`). -/
def ensure_dot_suffix (bundle_id s : Str) : Str :=
  if py_ends bundle_id ('.' :: s) then bundle_id else bundle_id ++ '.' :: s

/-- `update_source.apply_bundle_id_suffix`: append a deterministic suffix to
the bundle identifier derived from the display name or, failing that, from
the part of the name that is not the repository name. -/
def apply_bundle_id_suffix (bundle_id app_name repo_name : Str) : Str :=
  if bundle_id.isEmpty then bundle_id else
  let name_lower := py_lower app_name
  match suffix_keywords.find? (fun s => py_contains name_lower s) with
  | some s => ensure_dot_suffix bundle_id s
  | none =>
    let repo_name_clean := py_lower (last_slash_seg [] repo_name)
    if normalize_name app_name = normalize_name repo_name_clean then bundle_id
    else
      let extra_clean := (py_strip (py_remove name_lower repo_name_clean)).filter
        (fun c => c.isLower || c.isDigit)
      if 2 < extra_clean.length then ensure_dot_suffix bundle_id extra_clean
      else bundle_id

theorem py_ends_append (x s : Str) : py_ends (x ++ s) s = true := by
  simp [py_ends, List.isSuffixOf_iff_suffix]

theorem ensure_dot_suffix_ends (b s : Str) :
    py_ends (ensure_dot_suffix b s) ('.' :: s) = true := by
  unfold ensure_dot_suffix
  split
  · assumption
  · exact py_ends_append b ('.' :: s)

theorem ensure_dot_suffix_of_ends (b s : Str) (h : py_ends b ('.' :: s) = true) :
    ensure_dot_suffix b s = b := if_pos h

theorem ensure_dot_suffix_ne_empty (b s : Str) (hb : b.isEmpty = false) :
    (ensure_dot_suffix b s).isEmpty = false := by
  unfold ensure_dot_suffix
  split
  · exact hb
  · cases b with
    | nil => simp at hb
    | cons c t => rfl

theorem bundle_suffix_idem (b n r : Str) :
    apply_bundle_id_suffix (apply_bundle_id_suffix b n r) n r
      = apply_bundle_id_suffix b n r := by
  by_cases hb : b.isEmpty = true
  · simp [apply_bundle_id_suffix, hb]
  · have hb2 : b.isEmpty = false := by simpa using hb
    cases hf : suffix_keywords.find? (fun s => py_contains (py_lower n) s) with
    | some s =>
      have hy : apply_bundle_id_suffix b n r = ensure_dot_suffix b s := by
        simp [apply_bundle_id_suffix, hb2, hf]
      rw [hy]
      simp [apply_bundle_id_suffix, ensure_dot_suffix_ne_empty b s hb2, hf,
        ensure_dot_suffix_of_ends _ s (ensure_dot_suffix_ends b s)]
    | none =>
      by_cases hnorm : normalize_name n = normalize_name (py_lower (last_slash_seg [] r))
      · have hy : apply_bundle_id_suffix b n r = b := by
          simp [apply_bundle_id_suffix, hb2, hf, hnorm]
        rw [hy]
        simp [apply_bundle_id_suffix, hb2, hf, hnorm]
      · by_cases hlen : 2 < ((py_strip (py_remove (py_lower n)
            (py_lower (last_slash_seg [] r)))).filter
            (fun c => c.isLower || c.isDigit)).length
        · have hy : apply_bundle_id_suffix b n r
              = ensure_dot_suffix b ((py_strip (py_remove (py_lower n)
                  (py_lower (last_slash_seg [] r)))).filter
                  (fun c => c.isLower || c.isDigit)) := by
            simp [apply_bundle_id_suffix, hb2, hf, hnorm, hlen]
          rw [hy]
          simp [apply_bundle_id_suffix,
            ensure_dot_suffix_ne_empty _ _ hb2, hf, hnorm, hlen,
            ensure_dot_suffix_of_ends _ _ (ensure_dot_suffix_ends b _)]
        · have hy : apply_bundle_id_suffix b n r = b := by
            simp [apply_bundle_id_suffix, hb2, hf, hnorm, hlen]
          rw [hy]
          simp [apply_bundle_id_suffix, hb2, hf, hnorm, hlen]

/-- C4: the Identifier Disambiguator is idempotent: re-applying
`apply_bundle_id_suffix` with the same name and repo never appends a second
suffix, because each branch only appends when the identifier does not already
end with the suffix that the same inputs deterministically select; it is a
total function on strings. -/
theorem c4_apply_bundle_id_suffix_idem (b n r : Str) :
    apply_bundle_id_suffix (apply_bundle_id_suffix b n r) n r
      = apply_bundle_id_suffix b n r :=
  bundle_suffix_idem b n r

/-- Result of `client.get_repo_info(repo)` when the request succeeds.
`default_branch` is `none` when the JSON object has no such key (the code
then falls back to `'main'`); `avatar_url` is `none` when there is no
`owner` entry. -/
structure RepoInfo where
  description : Option Str
  default_branch : Option Str
  avatar_url : Option Str
deriving DecidableEq

/-- Derived data of the bytes downloaded from an asset URL: the parsed
`Info.plist` triple (version, build, optional bundle identifier) when
`get_ipa_metadata` finds one, and the SHA-256 hex digest of the bytes. -/
structure DownloadResult where
  meta : Option (Str × Str × Option Str)
  sha256 : Str
deriving DecidableEq

/-- Fixed upstream responses for one run: the network, the regex engine and
the downloaded bytes, all as pure functions of the request. -/
structure Oracle where
  releases : Str → Option (List Release)
  regex_valid : Str → Bool
  regex_search : Str → Str → Bool
  fetch_ok : Str → Bool
  decode_dims : Str → Option (Nat × Nat)
  img_colors : Str → Option (List (Nat × Nat × Nat × Nat × Nat))
  git_tree : Str → Option (List Str)
  root_contents : Str → Option (List Str)
  repo_info : Str → Option RepoInfo
  download : Str → Option DownloadResult

/-- `update_source.is_square_image`: `False` for a non-HTTP URL or when
`client.get` returns `None`; `True` when decoding raises (including a zero
height, whose `ZeroDivisionError` the `except` swallows); otherwise the
aspect-ratio test `0.95 <= w/h <= 1.05`, written exactly in cross-multiplied
integer form. -/
def is_square_image (image_url : Str) (o : Oracle) : Bool :=
  if !(py_starts image_url ("http://".data) || py_starts image_url ("https://".data))
    then false
  else if !o.fetch_ok image_url then false
  else match o.decode_dims image_url with
    | none => true
    | some (w, h) =>
      if h = 0 then true
      else decide (19 * h ≤ 20 * w ∧ 20 * w ≤ 21 * h)

/-- Python `'%02x'` of one channel value. -/
def hex2 (n : Nat) : Str :=
  let ds := Nat.toDigits 16 n
  if ds.length < 2 then List.replicate (2 - ds.length) '0' ++ ds else ds

/-- Python `'#{:02x}{:02x}{:02x}'.format(r, g, b).upper()`. -/
def hex_color (rgb : Nat × Nat × Nat) : Str :=
  ('#' :: (hex2 rgb.1 ++ hex2 rgb.2.1 ++ hex2 rgb.2.2)).map Char.toUpper

/-- The pixel-histogram scan of `extract_dominant_color`: skip
near-transparent, near-white and near-black buckets, and keep the bucket
with the strictly largest count, starting from `max_count = 0`,
`dominant = (0, 0, 0)`. -/
def dominant_scan (colors : List (Nat × Nat × Nat × Nat × Nat)) :
    Nat × (Nat × Nat × Nat) :=
  colors.foldl (fun acc cc =>
    if cc.2.2.2.2 < 10 then acc
    else if 240 < cc.2.1 ∧ 240 < cc.2.2.1 ∧ 240 < cc.2.2.2.1 then acc
    else if cc.2.1 < 15 ∧ cc.2.2.1 < 15 ∧ cc.2.2.2.1 < 15 then acc
    else if acc.1 < cc.1 then (cc.1, (cc.2.1, cc.2.2.1, cc.2.2.2.1))
    else acc) (0, (0, 0, 0))

/-- `update_source.extract_dominant_color`: `None` for a non-HTTP URL, a
failed fetch, a failed decode, or a `None`/empty histogram; otherwise the
most frequent eligible colour formatted as an upper-case hex string.  Each
histogram entry is `(count, r, g, b, a)`. -/
def extract_dominant_color (image_url : Str) (o : Oracle) : Option Str :=
  if !(py_starts image_url ("http://".data) || py_starts image_url ("https://".data))
    then none
  else if !o.fetch_ok image_url then none
  else match o.decode_dims image_url with
    | none => none
    | some _ =>
      match o.img_colors image_url with
      | none => none
      | some colors =>
        if colors.isEmpty then none
        else some (hex_color (dominant_scan colors).2)

/-- An oracle in which every network request fails. -/
def oracle_net_fail : Oracle :=
  { releases := fun _ => none, regex_valid := fun _ => false,
    regex_search := fun _ _ => false, fetch_ok := fun _ => false,
    decode_dims := fun _ => none, img_colors := fun _ => none,
    git_tree := fun _ => none, root_contents := fun _ => none,
    repo_info := fun _ => none, download := fun _ => none }

/-- An oracle serving one 100x102 image whose histogram is a single
near-white bucket. -/
def oracle_white_img : Oracle :=
  { releases := fun _ => none, regex_valid := fun _ => false,
    regex_search := fun _ _ => false, fetch_ok := fun _ => true,
    decode_dims := fun _ => some (100, 102),
    img_colors := fun _ => some [(10000, 255, 255, 255, 255)],
    git_tree := fun _ => none, root_contents := fun _ => none,
    repo_info := fun _ => none, download := fun _ => none }

/-- C5 counterexample: when the network fetch fails (`client.get` returns
`None`), `is_square_image` returns `False`, not `True` as the claim states;
only a raised decode exception reaches the optimistic `return True` path. -/
theorem c5_is_square_image_counterexample :
    oracle_net_fail.fetch_ok ("https://example.com/icon.png".data) = false ∧
    is_square_image ("https://example.com/icon.png".data) oracle_net_fail = false := by
  decide

/-- C5 (amended): for an HTTP(S) URL, `is_square_image` returns `False` when
the fetch fails, `True` when the fetched bytes cannot be decoded, and the
5%-tolerance width/height comparison exactly when fetch and decode both
succeed (with a nonzero height). -/
theorem c5_is_square_image (url : Str) (o : Oracle)
    (hurl : (py_starts url ("http://".data) || py_starts url ("https://".data)) = true) :
    (o.fetch_ok url = false → is_square_image url o = false) ∧
    (o.fetch_ok url = true → o.decode_dims url = none → is_square_image url o = true) ∧
    (∀ w h, o.fetch_ok url = true → o.decode_dims url = some (w, h) → 0 < h →
      (is_square_image url o = true ↔ (19 * h ≤ 20 * w ∧ 20 * w ≤ 21 * h))) := by
  refine ⟨?_, ?_, ?_⟩
  · intro hf
    simp [is_square_image, hurl, hf]
  · intro hf hd
    simp [is_square_image, hurl, hf, hd]
  · intro w h hf hd hh
    simp [is_square_image, hurl, hf, hd, Nat.pos_iff_ne_zero.mp hh]

/-- C5 witness: a fetched, decoded 100x102 image passes the 5% tolerance
check. -/
theorem c5_is_square_image_witness :
    is_square_image ("https://img.example/x.png".data) oracle_white_img = true := by
  have h := (c5_is_square_image ("https://img.example/x.png".data) oracle_white_img
    (by decide)).2.2 100 102 rfl rfl (by decide)
  exact h.mpr (by decide)

theorem dominant_scan_all_skipped (colors : List (Nat × Nat × Nat × Nat × Nat))
    (h : ∀ cc ∈ colors, cc.2.2.2.2 < 10 ∨
      (240 < cc.2.1 ∧ 240 < cc.2.2.1 ∧ 240 < cc.2.2.2.1) ∨
      (cc.2.1 < 15 ∧ cc.2.2.1 < 15 ∧ cc.2.2.2.1 < 15)) :
    dominant_scan colors = (0, (0, 0, 0)) := by
  suffices hgen : ∀ acc : Nat × (Nat × Nat × Nat), colors.foldl (fun acc cc =>
      if cc.2.2.2.2 < 10 then acc
      else if 240 < cc.2.1 ∧ 240 < cc.2.2.1 ∧ 240 < cc.2.2.2.1 then acc
      else if cc.2.1 < 15 ∧ cc.2.2.1 < 15 ∧ cc.2.2.2.1 < 15 then acc
      else if acc.1 < cc.1 then (cc.1, (cc.2.1, cc.2.2.1, cc.2.2.2.1))
      else acc) acc = acc by
    exact hgen (0, (0, 0, 0))
  induction colors with
  | nil => intro acc; rfl
  | cons c cs ih =>
    intro acc
    have hc := h c (List.mem_cons_self c cs)
    have hrest : ∀ cc ∈ cs, cc.2.2.2.2 < 10 ∨
        (240 < cc.2.1 ∧ 240 < cc.2.2.1 ∧ 240 < cc.2.2.2.1) ∨
        (cc.2.1 < 15 ∧ cc.2.2.1 < 15 ∧ cc.2.2.2.1 < 15) :=
      fun cc hcc => h cc (List.mem_cons_of_mem c hcc)
    simp only [List.foldl_cons]
    by_cases h1 : c.2.2.2.2 < 10
    · rw [if_pos h1]
      exact ih hrest acc
    · rw [if_neg h1]
      by_cases h2 : 240 < c.2.1 ∧ 240 < c.2.2.1 ∧ 240 < c.2.2.2.1
      · rw [if_pos h2]
        exact ih hrest acc
      · rw [if_neg h2]
        have h3 : c.2.1 < 15 ∧ c.2.2.1 < 15 ∧ c.2.2.2.1 < 15 := by
          rcases hc with ha | hb | hcc
          · exact absurd ha h1
          · exact absurd hb h2
          · exact hcc
        rw [if_pos h3]
        exact ih hrest acc

/-- C6 counterexample: an image whose only histogram bucket is near-white
(all channels > 240) has every pixel discarded, yet `extract_dominant_color`
returns the hex string `"#000000"` — the initial `dominant = (0, 0, 0)`
formatted — not the `None` sentinel the claim states. -/
theorem c6_extract_dominant_color_counterexample :
    oracle_white_img.img_colors ("https://img.example/x.png".data)
        = some [(10000, 255, 255, 255, 255)] ∧
    extract_dominant_color ("https://img.example/x.png".data) oracle_white_img
        = some ("#000000".data) := by
  decide

/-- C6 (amended): when the image fetches and decodes but every histogram
bucket is discarded by the eligibility filters (alpha < 10, all channels
> 240, or all channels < 15), `extract_dominant_color` returns the string
`"#000000"` — which coincides with the default neutral colour the caller
would substitute — rather than the `None` sentinel; `None` arises only from
a non-HTTP URL, a failed fetch or decode, or a `None`/empty histogram. -/
theorem c6_extract_dominant_color (url : Str) (o : Oracle)
    (colors : List (Nat × Nat × Nat × Nat × Nat)) (d : Nat × Nat)
    (hurl : (py_starts url ("http://".data) || py_starts url ("https://".data)) = true)
    (hf : o.fetch_ok url = true) (hdec : o.decode_dims url = some d)
    (hcol : o.img_colors url = some colors) (hne : colors ≠ [])
    (hskip : ∀ cc ∈ colors, cc.2.2.2.2 < 10 ∨
      (240 < cc.2.1 ∧ 240 < cc.2.2.1 ∧ 240 < cc.2.2.2.1) ∨
      (cc.2.1 < 15 ∧ cc.2.2.1 < 15 ∧ cc.2.2.2.1 < 15)) :
    extract_dominant_color url o = some ("#000000".data) := by
  have hscan := dominant_scan_all_skipped colors hskip
  have hemp : colors.isEmpty = false := by
    cases colors with
    | nil => exact absurd rfl hne
    | cons a l => rfl
  simp only [extract_dominant_color, hurl, Bool.not_true, Bool.false_eq_true,
    if_false, hf, hdec, hcol, hemp]
  rw [hscan]
  decide

/-- C6 witness: the amended statement applied to the concrete near-white
image oracle. -/
theorem c6_extract_dominant_color_witness :
    extract_dominant_color ("https://img.example/x.png".data) oracle_white_img
      = some ("#000000".data) :=
  c6_extract_dominant_color ("https://img.example/x.png".data) oracle_white_img
    [(10000, 255, 255, 255, 255)] (100, 102) (by decide) rfl rfl rfl
    (by decide) (by decide)

/-- One record of an entry's `versions` history. -/
structure VersionEntry where
  version : Str
  date : Str
  localizedDescription : Str
  downloadURL : Str
  size : Nat
  sha256 : Str
deriving DecidableEq

/-- One catalog entry (`apps` element of `source.json`).  String-valued keys
that the scripts only test for truthiness are modelled as `""` when absent;
the `permissions` key's presence is observable (it is popped and created),
so it is an `Option` whose payload stands for the JSON object value. -/
structure AppEntry where
  name : Str
  githubRepo : Str
  bundleIdentifier : Str
  developerName : Str
  version : Str
  versionDate : Str
  versionDescription : Str
  downloadURL : Str
  localizedDescription : Str
  iconURL : Str
  tintColor : Str
  size : Nat
  sha256 : Str
  permissions : Option (List (Str × Str))
  screenshotURLs : List Str
  versions : List VersionEntry
deriving DecidableEq

/-- The persisted catalog (`source.json`). -/
structure SourceData where
  name : Str
  identifier : Str
  apps : List AppEntry
  news : List Str
deriving DecidableEq

/-- State of the persisted catalog file on disk. -/
inductive CatalogFile where
  | missing
  | invalid
  | valid (data : SourceData)

/-- What `utils.load_json` can return when parsed as a catalog. -/
inductive LoadedJson where
  | emptyList
  | catalog (d : SourceData)

/-- `utils.load_json`: a missing file returns `[]` (the empty list), invalid
JSON logs and calls `sys.exit(1)` — modelled as `Except.error 1`. -/
def load_json : CatalogFile → Except Nat LoadedJson
  | .missing => .ok .emptyList
  | .invalid => .error 1
  | .valid d => .ok (.catalog d)

/-- The fresh empty catalog synthesized by `load_existing_source`. -/
def default_source (n i : Str) : SourceData :=
  { name := n, identifier := i, apps := [], news := [] }

/-- `update_source.load_existing_source`: if the file exists, try
`load_json` under a bare `except:` — which in Python catches the
`SystemExit` raised by `sys.exit(1)` — and fall back to the fresh default
catalog.  (`load_json` returns the empty list only for a missing file,
which the `os.path.exists` guard has already excluded, so that arm is
unreachable here and mapped to the default.) -/
def load_existing_source (f : CatalogFile) (default_name default_identifier : Str) :
    SourceData :=
  match f with
  | .missing => default_source default_name default_identifier
  | .invalid =>
    match load_json .invalid with
    | .error _ => default_source default_name default_identifier
    | .ok (.catalog d) => d
    | .ok .emptyList => default_source default_name default_identifier
  | .valid d0 =>
    match load_json (.valid d0) with
    | .error _ => default_source default_name default_identifier
    | .ok (.catalog d) => d
    | .ok .emptyList => default_source default_name default_identifier

/-- C9: on a catalog file whose contents are not valid JSON,
`load_json` exits with status 1 (`sys.exit(1)`), yet `load_existing_source`
does not abort: its bare `except:` catches the `SystemExit` and it returns
the fresh empty catalog `{name, identifier, apps: [], news: []}`. -/
theorem c9_load_existing_source (n i : Str) :
    load_json CatalogFile.invalid = Except.error 1 ∧
    load_existing_source CatalogFile.invalid n i = default_source n i ∧
    (load_existing_source CatalogFile.invalid n i).apps = [] ∧
    (load_existing_source CatalogFile.invalid n i).news = [] :=
  ⟨rfl, rfl, rfl, rfl⟩

/-- The path-scoring heuristic `score_path` inside `utils.find_best_icon`. -/
def score_path (path : Str) : Int :=
  let p := py_lower path
  let folder : Int :=
    if py_contains p ("appicon.appiconset".data) then 100
    else if py_contains p ("ios/".data) then 50
    else if py_contains p ("assets/".data) then 20
    else if py_contains p ("public/".data) then 10
    else 0
  let nm := last_slash_seg [] p
  let base : Int :=
    if py_contains nm ("icon".data) then 30
    else if py_contains nm ("logo".data) then 20
    else if py_contains nm ("app".data) then 10
    else 0
  let res : Int :=
    if py_contains nm ("1024".data) then 15
    else if py_contains nm ("512".data) then 10
    else if py_contains nm ("120".data) then 5
    else 0
  let pen : Int :=
    (if py_contains p ("android".data) then -50 else 0) +
    (if py_contains nm ("small".data) then -10 else 0) +
    (if py_contains nm ("toolbar".data) then -20 else 0)
  folder + base + res + pen

/-- Modelled from the spec: `score_icon_path` is imported from `utils` in
`update_source.py` but its definition is absent from the sources given; the
spec's §4.4 weights coincide with `score_path` inside `find_best_icon`, so
it is modelled as that same scoring applied to the stored URL/path string. -/
def score_icon_path (p : Str) : Int := score_path p

/-- `path.lower().endswith(('.png', '.jpg', '.jpeg', '.webp', '.svg'))`. -/
def has_image_ext (path : Str) : Bool :=
  let p := py_lower path
  py_ends p (".png".data) || py_ends p (".jpg".data) || py_ends p (".jpeg".data) ||
    py_ends p (".webp".data) || py_ends p (".svg".data)

/-- `utils.find_best_icon`: collect positive-score image paths from the git
tree (falling back to the root listing), sort them by score descending
(stable), and return the RAW URL STRING of the single best path; with no
candidates fall back to the owner avatar URL or `None`.  A failed
`repo_info` request on the URL-building path would raise in Python; it is
modelled as the `'main'` default branch. -/
def find_best_icon (o : Oracle) (repo : Str) : Option Str :=
  let tree_paths : Option (List Str) :=
    match o.git_tree repo with
    | some ps => some ps
    | none => o.root_contents repo
  match tree_paths with
  | none => none
  | some paths =>
    let cands : List (Int × Str) := paths.filterMap (fun path =>
      if has_image_ext path then
        (if 0 < score_path path then some (score_path path, path) else none)
      else none)
    if cands.isEmpty then
      match o.repo_info repo with
      | some info => info.avatar_url
      | none => none
    else
      let sorted := py_sorted (fun a b => decide (b.1 ≤ a.1)) cands
      let best_path := (sorted.headD (0, [])).2
      let branch : Str :=
        match o.repo_info repo with
        | some info => (info.default_branch).getD ("main".data)
        | none => ("main".data)
      some (("https://raw.githubusercontent.com/".data) ++ repo ++ '/' :: branch
        ++ '/' :: best_path)

/-- The candidate iteration both call sites of `find_best_icon` in
`process_app` perform: `if repo_icons:` then
`for cand in repo_icons: if is_square_image(cand): ... break / else:
repo_icons[0]`.  Iterating the returned Python STRING yields its characters,
so each candidate is a one-character string and the fallback is the first
character. -/
def pick_icon_from (repo_icons : Option Str) (o : Oracle) : Option Str :=
  match repo_icons with
  | none => none
  | some [] => none
  | some (c :: rest) =>
    match ((c :: rest).map (fun ch => [ch])).find? (fun cand => is_square_image cand o) with
    | some cand => some cand
    | none => some [c]

/-- Repo info advertising `main` as the default branch. -/
def repo_info_main : RepoInfo :=
  { description := none, default_branch := some ("main".data), avatar_url := none }

/-- An oracle whose repository tree holds a single `icon.png`, whose repo
info names the `main` default branch, and whose images all fetch and decode
as 100x100. -/
def oracle_icon_repo : Oracle :=
  { releases := fun _ => none, regex_valid := fun _ => false,
    regex_search := fun _ _ => false, fetch_ok := fun _ => true,
    decode_dims := fun _ => some (100, 100),
    img_colors := fun _ => none,
    git_tree := fun _ => some [("icon.png".data)],
    root_contents := fun _ => none,
    repo_info := fun _ => some repo_info_main,
    download := fun _ => none }

/-- C7: `find_best_icon` does NOT return the ranked candidate list the claim
(and the callers in `process_app`) require: it returns the single best
path's raw-URL string.  The callers iterate that string character by
character; no one-character candidate passes `is_square_image`'s URL-prefix
check (even though every genuine URL in this oracle is square), so the
for-else fallback `repo_icons[0]` selects the first CHARACTER `"h"` as the
"icon".  (`update_source.py` also imports `score_icon_path` and
`normalize_name`, which `utils.py` does not define.) -/
theorem c7_find_best_icon_code_bug :
    find_best_icon oracle_icon_repo ("o/r".data)
        = some ("https://raw.githubusercontent.com/o/r/main/icon.png".data) ∧
    is_square_image ("https://raw.githubusercontent.com/o/r/main/icon.png".data)
        oracle_icon_repo = true ∧
    pick_icon_from (find_best_icon oracle_icon_repo ("o/r".data)) oracle_icon_repo
        = some ("h".data) := by
  decide

/-- One TrackedApp record of the curated list (`apps.json`). -/
structure AppConfig where
  name : Str
  github_repo : Str
  pre_release : Bool
  tag_regex : Option Str
  ipa_regex : Option Str
  icon_url : Option Str
  tint_color : Option Str
deriving DecidableEq

/-- One fuelled step of `re.sub(r'\s*\((.*?)\)', '', s)`: at each position,
a maximal whitespace run followed by `(` with a later `)` on the same line
is deleted through the first `)`; otherwise emit one character and move on. -/
def strip_parens_go (fuel : Nat) (s : Str) : Str :=
  match fuel, s with
  | 0, l => l
  | _ + 1, [] => []
  | fuel + 1, c :: t =>
    let ws := (c :: t).takeWhile Char.isWhitespace
    let rest := (c :: t).drop ws.length
    match rest with
    | '(' :: r2 =>
      let upto := r2.takeWhile (fun x => x != ')')
      if upto.length < r2.length && !upto.contains '\n' then
        strip_parens_go fuel (r2.drop (upto.length + 1))
      else c :: strip_parens_go fuel t
    | _ => c :: strip_parens_go fuel t

/-- `re.sub(r'\s*\((.*?)\)', '', s)`: remove parenthetical suffixes such as
`" (Nightly)"`. -/
def strip_parens (s : Str) : Str := strip_parens_go s.length s

/-- `[a-zA-Z0-9]` (the ASCII class used by the token regex). -/
def is_ascii_alnum (c : Char) : Bool := c.isAlpha || c.isDigit

/-- Maximal ASCII-alphanumeric runs of `s` (fuelled scan). -/
def alnum_runs_go (fuel : Nat) (s : Str) : List Str :=
  match fuel, s with
  | 0, _ => []
  | _ + 1, [] => []
  | fuel + 1, c :: t =>
    if is_ascii_alnum c then
      let run := (c :: t).takeWhile is_ascii_alnum
      run :: alnum_runs_go fuel ((c :: t).drop run.length)
    else alnum_runs_go fuel t

/-- `re.findall(r'[a-zA-Z0-9]{3,}', s)`: maximal ASCII-alphanumeric runs of
length at least 3. -/
def py_tokens (s : Str) : List Str :=
  (alnum_runs_go s.length s).filter (fun r => 3 ≤ r.length)

/-- `flavor_keywords = name_words - repo_words` of `select_best_ipa`:
tokens of the display name (parentheticals stripped, lower-cased) that are
not tokens of the repo slug.  Python's `set` is modelled as a deduplicated
list; the keywords are only counted, so order is irrelevant. -/
def flavor_keywords (cfg_name repo : Str) : List Str :=
  let nw := (py_tokens (py_lower (strip_parens cfg_name))).dedup
  let rw := py_tokens (py_lower repo)
  nw.filter (fun w => !(decide (w ∈ rw)))

/-- `os.path.splitext(name)[0]`: drop the extension after the last dot,
unless the name has no dot or only leading dots. -/
def splitext_base (s : Str) : Str :=
  let rev := s.reverse
  let pre := rev.takeWhile (fun c => c != '.')
  if pre.length = rev.length then s
  else
    let rest := rev.drop (pre.length + 1)
    if rest.any (fun c => c != '.') then rest.reverse else s

/-- The flavor-suffix markers of `select_best_ipa`'s exclusion tier. -/
def exclude_patterns : List Str :=
  [("-remote".data), ("-hv".data), ("-se".data), ("-jailbroken".data),
   ("-macos".data), ("-linux".data), ("-windows".data)]

/-- Tiers 5 and 6 of `select_best_ipa`: drop assets carrying a flavor-suffix
marker; if any remain return the first, else the first asset overall. -/
def exclusion_tier (ipa_assets : List ReleaseAsset) : Option ReleaseAsset :=
  let filtered := ipa_assets.filter (fun a =>
    !(exclude_patterns.any (fun p => py_contains (py_lower a.name) p)))
  match filtered with
  | a :: _ => some a
  | [] => ipa_assets.head?

/-- `update_source.select_best_ipa`: the full priority chain — single
candidate, user regex, exact normalized match, fuzzy scoring, exclusion
filter, first-asset fallback. -/
def select_best_ipa (assets : List ReleaseAsset) (cfg : AppConfig) (o : Oracle) :
    Option ReleaseAsset :=
  let ipa_assets := assets.filter (fun a => py_ends (py_lower a.name) (".ipa".data))
  match ipa_assets with
  | [] => none
  | [a] => some a
  | _ =>
    let regex_pick : Option ReleaseAsset :=
      match cfg.ipa_regex with
      | some pat =>
        if !pat.isEmpty && o.regex_valid pat then
          ipa_assets.find? (fun a => o.regex_search pat a.name)
        else none
      | none => none
    match regex_pick with
    | some a => some a
    | none =>
      let norm_app := normalize_name cfg.name
      let norm_repo := normalize_name (last_slash_seg [] cfg.github_repo)
      let fkws := flavor_keywords cfg.name cfg.github_repo
      match ipa_assets.find? (fun a =>
        let nb := normalize_name (splitext_base a.name)
        decide (nb = norm_app) || decide (nb = norm_repo)) with
      | some a => some a
      | none =>
        let scored : List (Int × ReleaseAsset) := ipa_assets.map (fun a =>
          let base := splitext_base a.name
          let nb := normalize_name base
          let s1 : Int := if py_contains nb norm_app then 10 else 0
          let s2 : Int := if py_contains norm_app nb then 5 else 0
          let s3 : Int := 20 * ((fkws.filter
            (fun kw => py_contains (py_lower base) kw)).length : Int)
          (s1 + s2 + s3, a))
        match py_sorted (fun a b => decide (b.1 ≤ a.1)) scored with
        | (s, a) :: _ => if 0 < s then some a else exclusion_tier ipa_assets
        | [] => exclusion_tier ipa_assets

/-- `client.get_latest_release` through the oracle: `none` models a failed
request or a non-list response. -/
def get_latest_release (o : Oracle) (repo : Str) (prefer : Bool)
    (tag_regex : Option Str) : Option Release :=
  match o.releases repo with
  | none => none
  | some rs => get_latest_release_from rs prefer tag_regex o.regex_valid o.regex_search

/-- The first entry whose repo and name both match, with its index
(`next((a for a in apps if ...))` over `existing_source['apps']`). -/
def find_exact (repo name : Str) : List AppEntry → Option (Nat × AppEntry)
  | [] => none
  | e :: rest =>
    if e.githubRepo = repo ∧ e.name = name then some (0, e)
    else (find_exact repo name rest).map (fun p => (p.1 + 1, p.2))

/-- All entries sharing the repo, with their indices (the `repo_matches`
list of lines 230-232). -/
def repo_matches (repo : Str) : List AppEntry → List (Nat × AppEntry)
  | [] => []
  | e :: rest =>
    if e.githubRepo = repo then (0, e) :: (repo_matches repo rest).map (fun p => (p.1 + 1, p.2))
    else (repo_matches repo rest).map (fun p => (p.1 + 1, p.2))

/-- The matching of `process_app` (lines 225-232): first entry with both
repo and name equal; else, if exactly one entry shares the repo, that
legacy entry. -/
def match_entry (repo name : Str) (apps : List AppEntry) : Option (Nat × AppEntry) :=
  match find_exact repo name apps with
  | some p => some p
  | none =>
    match repo_matches repo apps with
    | [p] => some p
    | _ => none

/-- The icon sentinels `['None', '_No response_']`. -/
def sentinel_none_icon (s : Str) : Bool :=
  decide (s = ("None".data)) || decide (s = ("_No response_".data))

/-- Line 252 of `process_app`: the configured override when truthy and not
a sentinel, else the entry's current icon. -/
def best0_icon (cfg : AppConfig) (cur : Str) : Str :=
  if !(cfg.icon_url.getD []).isEmpty && !sentinel_none_icon (cfg.icon_url.getD [])
    then cfg.icon_url.getD [] else cur

/-- Lines 248-284 of `process_app`: choose between the configured override,
the entry's current icon, and the repo-discovered candidate, preferring
squareness and then path score. -/
def refresh_icon (cfg : AppConfig) (o : Oracle) (current_icon : Str) : Str :=
  match pick_icon_from (find_best_icon o cfg.github_repo) o with
  | none => best0_icon cfg current_icon
  | some ri =>
    if ri.isEmpty then best0_icon cfg current_icon
    else if (best0_icon cfg current_icon).isEmpty then ri
    else if is_square_image ri o && !is_square_image (best0_icon cfg current_icon) o then ri
    else if score_icon_path (best0_icon cfg current_icon) < score_icon_path ri then ri
    else best0_icon cfg current_icon

/-- The entry's icon after lines 248-286: the selected `best_icon` when it
is truthy, else the stored icon unchanged (`if best_icon:` guards the
assignment). -/
def icon_step (cfg : AppConfig) (o : Oracle) (cur : Str) : Str :=
  if (refresh_icon cfg o cur).isEmpty then cur else refresh_icon cfg o cur

/-- The entry's tint after lines 288-293, as a function of the (already
updated) icon and the stored tint: an explicit truthy override wins;
otherwise re-extract only when the stored tint is missing or the `#000000`
placeholder, keeping the old value when extraction returns `None`. -/
def refresh_tint (cfg : AppConfig) (o : Oracle) (icon tint : Str) : Str :=
  let fallback :=
    if tint.isEmpty || decide (tint = ("#000000".data)) then
      (extract_dominant_color icon o).getD tint
    else tint
  match cfg.tint_color with
  | some t => if t.isEmpty then fallback else t
  | none => fallback

/-- Lines 236-295 of `process_app`: the metadata refresh applied to a
matched entry before any release is resolved — pin repo and name, re-apply
the identifier disambiguator, re-select the icon, re-derive the tint from
the updated icon, and pop the `permissions` key.  The steps are
independent, so they are written as one record update: the identifier uses
only the stored identifier, the icon uses only the stored icon, and the
tint uses the updated icon and the stored tint, exactly as in the source
order. -/
def refresh_entry (cfg : AppConfig) (o : Oracle) (e : AppEntry) : AppEntry :=
  { e with
    githubRepo := cfg.github_repo,
    name := cfg.name,
    bundleIdentifier := apply_bundle_id_suffix e.bundleIdentifier cfg.name cfg.github_repo,
    iconURL := icon_step cfg o e.iconURL,
    tintColor := refresh_tint cfg o (icon_step cfg o e.iconURL) e.tintColor,
    permissions := none }

/-- `f"com.placeholder.{name.lower().replace(' ', '')}"`. -/
def default_bundle_of (name : Str) : Str :=
  ("com.placeholder.".data) ++ (py_lower name).filter (fun c => c != ' ')

/-- Python `s.lstrip('v')`. -/
def py_lstrip_v (s : Str) : Str := s.dropWhile (fun c => c == 'v')

/-- `release['published_at'].split('T')[0]`. -/
def date_before_T (s : Str) : Str := s.takeWhile (fun c => c != 'T')

/-- `release['body'] or "Update"`. -/
def body_or_update (b : Option Str) : Str :=
  match b with
  | none => ("Update".data)
  | some s => if s.isEmpty then ("Update".data) else s

/-- `(repo_info or {}).get('description') or "No description available."`. -/
def desc_of (ri : Option RepoInfo) : Str :=
  match ri with
  | none => ("No description available.".data)
  | some info =>
    match info.description with
    | none => ("No description available.".data)
    | some d => if d.isEmpty then ("No description available.".data) else d

/-- The `(version, bundle_id)` pair after lines 332-343: the parsed plist
values, or the tag (leading `v`s stripped) and the placeholder identifier
when parsing failed or gave a falsy version. -/
def resolved_meta (cfg : AppConfig) (release : Release) (dres : DownloadResult) :
    Str × Str :=
  let default_bid := default_bundle_of cfg.name
  match dres.meta with
  | none => (py_lstrip_v release.tag_name, default_bid)
  | some (v, _, bid) =>
    if v.isEmpty then (py_lstrip_v release.tag_name, default_bid)
    else (v, bid.getD default_bid)

/-- The `new_version_entry` dict of lines 362-369. -/
def make_version_entry (cfg : AppConfig) (release : Release)
    (ipa_asset : ReleaseAsset) (dres : DownloadResult) : VersionEntry :=
  { version := (resolved_meta cfg release dres).1,
    date := date_before_T release.published_at,
    localizedDescription := body_or_update release.body,
    downloadURL := ipa_asset.browser_download_url,
    size := ipa_asset.size,
    sha256 := dres.sha256 }

/-- Lines 371-383: prepend the version record and mirror the latest values
into the matched entry's top-level fields. -/
def update_matched (cfg : AppConfig) (o : Oracle) (release : Release)
    (ipa_asset : ReleaseAsset) (dres : DownloadResult) (e1 : AppEntry) : AppEntry :=
  let nv := make_version_entry cfg release ipa_asset dres
  { e1 with
    versions := nv :: e1.versions,
    version := nv.version,
    versionDate := nv.date,
    versionDescription := nv.localizedDescription,
    downloadURL := nv.downloadURL,
    localizedDescription := desc_of (o.repo_info cfg.github_repo),
    size := ipa_asset.size,
    sha256 := dres.sha256,
    bundleIdentifier := apply_bundle_id_suffix (resolved_meta cfg release dres).2
      cfg.name cfg.github_repo }

/-- Lines 385-425: the freshly created entry, with icon
(override → discovery, preferring square) and tint (override → extracted →
default).  The new entry has a `permissions: {}` object and no top-level
`sha256` key (modelled as `""`). -/
def make_new_entry (cfg : AppConfig) (o : Oracle) (release : Release)
    (ipa_asset : ReleaseAsset) (dres : DownloadResult) : AppEntry :=
  let nv := make_version_entry cfg release ipa_asset dres
  let icon0 := cfg.icon_url.getD []
  let icon_url :=
    if icon0.isEmpty || sentinel_none_icon icon0 then
      match pick_icon_from (find_best_icon o cfg.github_repo) o with
      | some c => c
      | none => icon0
    else icon0
  let tint0 := cfg.tint_color.getD []
  let tint_color :=
    if tint0.isEmpty then (extract_dominant_color icon_url o).getD ("#000000".data)
    else tint0
  { name := cfg.name,
    githubRepo := cfg.github_repo,
    bundleIdentifier := apply_bundle_id_suffix (resolved_meta cfg release dres).2
      cfg.name cfg.github_repo,
    developerName := first_slash_seg cfg.github_repo,
    version := nv.version,
    versionDate := nv.date,
    versionDescription := nv.localizedDescription,
    downloadURL := nv.downloadURL,
    localizedDescription := desc_of (o.repo_info cfg.github_repo),
    iconURL := icon_url,
    tintColor := tint_color,
    size := ipa_asset.size,
    sha256 := [],
    permissions := some [],
    screenshotURLs := [],
    versions := [nv] }

/-- `update_source.process_app` on the catalog: refresh the matched entry,
resolve release and asset, skip when the download URL is already recorded,
otherwise download and either update the matched entry or append a new
one.  Every failure path returns the catalog with only the refresh
applied. -/
def process_app (cfg : AppConfig) (o : Oracle) (src : SourceData) : SourceData :=
  match match_entry cfg.github_repo cfg.name src.apps with
  | some (i, e0) =>
    let e1 := refresh_entry cfg o e0
    let apps1 := src.apps.set i e1
    match get_latest_release o cfg.github_repo cfg.pre_release cfg.tag_regex with
    | none => { src with apps := apps1 }
    | some release =>
      match select_best_ipa release.assets cfg o with
      | none => { src with apps := apps1 }
      | some ipa_asset =>
        if e1.versions.any (fun v =>
            decide (v.downloadURL = ipa_asset.browser_download_url)) then
          { src with apps := apps1 }
        else
          match o.download ipa_asset.browser_download_url with
          | none => { src with apps := apps1 }
          | some dres =>
            { src with apps := apps1.set i (update_matched cfg o release ipa_asset dres e1) }
  | none =>
    match get_latest_release o cfg.github_repo cfg.pre_release cfg.tag_regex with
    | none => src
    | some release =>
      match select_best_ipa release.assets cfg o with
      | none => src
      | some ipa_asset =>
        match o.download ipa_asset.browser_download_url with
        | none => src
        | some dres =>
          { src with apps := src.apps ++ [make_new_entry cfg o release ipa_asset dres] }

/-- `process_app` together with its `apps_list_to_update` side channel:
`found_icon_auto` is bound to `None` at line 234 and never reassigned, so
the sync-back block of lines 428-434 can never fire. -/
def process_app_sync (cfg : AppConfig) (o : Oracle) (src : SourceData)
    (apps_list : List AppConfig) : SourceData × List AppConfig :=
  let found_icon_auto : Option Str := none
  let src2 := process_app cfg o src
  let apps2 :=
    match found_icon_auto with
    | none => apps_list
    | some icon =>
      match apps_list.enum.find? (fun p =>
          decide (p.2.github_repo = cfg.github_repo)) with
      | some (i, oc) =>
        if (oc.icon_url.getD []).isEmpty then
          apps_list.set i { oc with icon_url := some icon }
        else apps_list
      | none => apps_list
  (src2, apps2)

/-- The keep-test of the pruning loop (lines 462-473). -/
def prune_keep (cfgs : List AppConfig) (a : AppEntry) : Bool :=
  if !a.githubRepo.isEmpty then decide (a.githubRepo ∈ cfgs.map (fun c => c.github_repo))
  else decide ((a.developerName, a.name) ∈
    cfgs.map (fun c => (first_slash_seg c.github_repo, c.name)))

/-- `app_order.get(repo, 9999)` where `app_order` maps each repo to its
(last) index in the curated list (lines 477-483). -/
def app_order (cfgs : List AppConfig) (r : Str) : Nat :=
  match (cfgs.enum.filter (fun p => decide (p.2.github_repo = r))).getLast? with
  | some p => p.1
  | none => 9999

/-- `get_sort_key` of lines 479-483. -/
def sort_key (cfgs : List AppConfig) (a : AppEntry) : Nat :=
  if !a.githubRepo.isEmpty then app_order cfgs a.githubRepo else 9999

/-- `update_source.update_repo` on a loaded catalog: pin name and
identifier, run `process_app` over the curated list, prune entries absent
from it, and stable-sort by curated order.  The second component is the
curated list written back when it changed (`if apps != original_apps`). -/
def update_repo (cfgs : List AppConfig) (o : Oracle) (src0 : SourceData)
    (source_name source_identifier : Str) : SourceData × Option (List AppConfig) :=
  let src1 : SourceData := { src0 with name := source_name, identifier := source_identifier }
  let st := cfgs.foldl (fun (acc : SourceData × List AppConfig) cfg =>
    process_app_sync cfg o acc.1 acc.2) (src1, cfgs)
  let saved_cfg : Option (List AppConfig) := if st.2 = cfgs then none else some st.2
  let kept := st.1.apps.filter (prune_keep cfgs)
  let sorted := py_sorted (fun a b => decide (sort_key cfgs a ≤ sort_key cfgs b)) kept
  ({ st.1 with apps := sorted }, saved_cfg)

theorem find_exact_get (r n : Str) (l : List AppEntry) :
    ∀ i e, find_exact r n l = some (i, e) →
      l[i]? = some e ∧ e.githubRepo = r ∧ e.name = n := by
  induction l with
  | nil => intro i e h; simp [find_exact] at h
  | cons x xs ih =>
    intro i e h
    simp only [find_exact] at h
    split at h
    · rename_i hx
      cases h
      exact ⟨List.getElem?_cons_zero, hx.1, hx.2⟩
    · cases hfe : find_exact r n xs with
      | none => rw [hfe] at h; exact Option.noConfusion h
      | some p =>
        obtain ⟨j, e2⟩ := p
        rw [hfe] at h
        simp only [Option.map_some'] at h
        cases h
        obtain ⟨h1, h2, h3⟩ := ih j e hfe
        exact ⟨by rw [List.getElem?_cons_succ]; exact h1, h2, h3⟩

theorem repo_matches_mem (r : Str) (l : List AppEntry) :
    ∀ p ∈ repo_matches r l, l[p.1]? = some p.2 ∧ p.2.githubRepo = r := by
  induction l with
  | nil => intro p hp; simp [repo_matches] at hp
  | cons x xs ih =>
    intro p hp
    simp only [repo_matches] at hp
    split at hp
    · rename_i hx
      rcases List.mem_cons.mp hp with h0 | h1
      · subst h0; exact ⟨List.getElem?_cons_zero, hx⟩
      · obtain ⟨q, hq, hqe⟩ := List.mem_map.mp h1
        obtain ⟨qi, qe⟩ := q
        obtain ⟨hg, hr⟩ := ih (qi, qe) hq
        subst hqe
        exact ⟨by rw [List.getElem?_cons_succ]; exact hg, hr⟩
    · obtain ⟨q, hq, hqe⟩ := List.mem_map.mp hp
      obtain ⟨qi, qe⟩ := q
      obtain ⟨hg, hr⟩ := ih (qi, qe) hq
      subst hqe
      exact ⟨by rw [List.getElem?_cons_succ]; exact hg, hr⟩

theorem match_entry_get (r n : Str) (l : List AppEntry) (i : Nat) (e : AppEntry)
    (h : match_entry r n l = some (i, e)) : l[i]? = some e ∧ e.githubRepo = r := by
  unfold match_entry at h
  cases hfe : find_exact r n l with
  | some p =>
    rw [hfe] at h
    cases h
    obtain ⟨h1, h2, h3⟩ := find_exact_get r n l i e hfe
    exact ⟨h1, h2⟩
  | none =>
    rw [hfe] at h
    cases hrm : repo_matches r l with
    | nil => rw [hrm] at h; cases h
    | cons p ps =>
      rw [hrm] at h
      cases ps with
      | nil =>
        cases h
        have := repo_matches_mem r l (i, e) (by rw [hrm]; exact List.mem_singleton.mpr rfl)
        exact this
      | cons q qs => cases h

theorem refresh_entry_versions (cfg : AppConfig) (o : Oracle) (e : AppEntry) :
    (refresh_entry cfg o e).versions = e.versions := rfl

theorem refresh_entry_permissions (cfg : AppConfig) (o : Oracle) (e : AppEntry) :
    (refresh_entry cfg o e).permissions = none := rfl

theorem update_matched_permissions (cfg : AppConfig) (o : Oracle) (release : Release)
    (a : ReleaseAsset) (d : DownloadResult) (e : AppEntry) :
    (update_matched cfg o release a d e).permissions = e.permissions := rfl

theorem process_app_matched_norel (cfg : AppConfig) (o : Oracle) (S : SourceData)
    (i : Nat) (e0 : AppEntry)
    (h : match_entry cfg.github_repo cfg.name S.apps = some (i, e0))
    (hrel : get_latest_release o cfg.github_repo cfg.pre_release cfg.tag_regex = none) :
    process_app cfg o S = { S with apps := S.apps.set i (refresh_entry cfg o e0) } := by
  unfold process_app
  simp only [h, hrel]

theorem process_app_matched_noasset (cfg : AppConfig) (o : Oracle) (S : SourceData)
    (i : Nat) (e0 : AppEntry) (release : Release)
    (h : match_entry cfg.github_repo cfg.name S.apps = some (i, e0))
    (hrel : get_latest_release o cfg.github_repo cfg.pre_release cfg.tag_regex = some release)
    (hsel : select_best_ipa release.assets cfg o = none) :
    process_app cfg o S = { S with apps := S.apps.set i (refresh_entry cfg o e0) } := by
  unfold process_app
  simp only [h, hrel, hsel]

theorem process_app_matched_skip (cfg : AppConfig) (o : Oracle) (S : SourceData)
    (i : Nat) (e0 : AppEntry) (release : Release) (a : ReleaseAsset)
    (h : match_entry cfg.github_repo cfg.name S.apps = some (i, e0))
    (hrel : get_latest_release o cfg.github_repo cfg.pre_release cfg.tag_regex = some release)
    (hsel : select_best_ipa release.assets cfg o = some a)
    (hskip : (refresh_entry cfg o e0).versions.any
      (fun v => decide (v.downloadURL = a.browser_download_url)) = true) :
    process_app cfg o S = { S with apps := S.apps.set i (refresh_entry cfg o e0) } := by
  unfold process_app
  simp only [h, hrel, hsel, hskip, if_true]

theorem process_app_matched_dlfail (cfg : AppConfig) (o : Oracle) (S : SourceData)
    (i : Nat) (e0 : AppEntry) (release : Release) (a : ReleaseAsset)
    (h : match_entry cfg.github_repo cfg.name S.apps = some (i, e0))
    (hrel : get_latest_release o cfg.github_repo cfg.pre_release cfg.tag_regex = some release)
    (hsel : select_best_ipa release.assets cfg o = some a)
    (hskip : (refresh_entry cfg o e0).versions.any
      (fun v => decide (v.downloadURL = a.browser_download_url)) = false)
    (hdl : o.download a.browser_download_url = none) :
    process_app cfg o S = { S with apps := S.apps.set i (refresh_entry cfg o e0) } := by
  unfold process_app
  simp only [h, hrel, hsel, hskip, Bool.false_eq_true, if_false, hdl]

theorem process_app_matched_dl (cfg : AppConfig) (o : Oracle) (S : SourceData)
    (i : Nat) (e0 : AppEntry) (release : Release) (a : ReleaseAsset) (dres : DownloadResult)
    (h : match_entry cfg.github_repo cfg.name S.apps = some (i, e0))
    (hrel : get_latest_release o cfg.github_repo cfg.pre_release cfg.tag_regex = some release)
    (hsel : select_best_ipa release.assets cfg o = some a)
    (hskip : (refresh_entry cfg o e0).versions.any
      (fun v => decide (v.downloadURL = a.browser_download_url)) = false)
    (hdl : o.download a.browser_download_url = some dres) :
    process_app cfg o S
      = { S with apps := S.apps.set i (update_matched cfg o release a dres (refresh_entry cfg o e0)) } := by
  unfold process_app
  simp only [h, hrel, hsel, hskip, Bool.false_eq_true, if_false, hdl, List.set_set]

theorem process_app_unmatched_norel (cfg : AppConfig) (o : Oracle) (S : SourceData)
    (h : match_entry cfg.github_repo cfg.name S.apps = none)
    (hrel : get_latest_release o cfg.github_repo cfg.pre_release cfg.tag_regex = none) :
    process_app cfg o S = S := by
  unfold process_app
  simp only [h, hrel]

theorem process_app_unmatched_noasset (cfg : AppConfig) (o : Oracle) (S : SourceData)
    (release : Release)
    (h : match_entry cfg.github_repo cfg.name S.apps = none)
    (hrel : get_latest_release o cfg.github_repo cfg.pre_release cfg.tag_regex = some release)
    (hsel : select_best_ipa release.assets cfg o = none) :
    process_app cfg o S = S := by
  unfold process_app
  simp only [h, hrel, hsel]

theorem process_app_unmatched_dlfail (cfg : AppConfig) (o : Oracle) (S : SourceData)
    (release : Release) (a : ReleaseAsset)
    (h : match_entry cfg.github_repo cfg.name S.apps = none)
    (hrel : get_latest_release o cfg.github_repo cfg.pre_release cfg.tag_regex = some release)
    (hsel : select_best_ipa release.assets cfg o = some a)
    (hdl : o.download a.browser_download_url = none) :
    process_app cfg o S = S := by
  unfold process_app
  simp only [h, hrel, hsel, hdl]

theorem process_app_unmatched_dl (cfg : AppConfig) (o : Oracle) (S : SourceData)
    (release : Release) (a : ReleaseAsset) (dres : DownloadResult)
    (h : match_entry cfg.github_repo cfg.name S.apps = none)
    (hrel : get_latest_release o cfg.github_repo cfg.pre_release cfg.tag_regex = some release)
    (hsel : select_best_ipa release.assets cfg o = some a)
    (hdl : o.download a.browser_download_url = some dres) :
    process_app cfg o S =
      { S with apps := S.apps ++ [make_new_entry cfg o release a dres] } := by
  unfold process_app
  simp only [h, hrel, hsel, hdl]

/-- C10: whenever `process_app` matches an entry, the metadata refresh pops
its `permissions` key (the result at the matched index has no
`permissions`), even when no release is found — in which case the version
history is also untouched; whereas with no match, every entry of the result
is either an untouched input entry or a freshly created one carrying an
empty `permissions` object. -/
theorem c10_permissions_refresh (cfg : AppConfig) (o : Oracle) (S : SourceData)
    (i : Nat) (e0 : AppEntry)
    (h : match_entry cfg.github_repo cfg.name S.apps = some (i, e0)) :
    (∃ e1, (process_app cfg o S).apps[i]? = some e1 ∧ e1.permissions = none ∧
      (get_latest_release o cfg.github_repo cfg.pre_release cfg.tag_regex = none →
        e1.versions = e0.versions)) ∧
    (∀ T : SourceData, match_entry cfg.github_repo cfg.name T.apps = none →
      ∀ e2 ∈ (process_app cfg o T).apps, e2 ∈ T.apps ∨ e2.permissions = some []) := by
  constructor
  · have hlt : i < S.apps.length := by
      have := (match_entry_get _ _ _ _ _ h).1
      exact (List.getElem?_eq_some.mp this).1
    have hset : ∀ x : AppEntry, (S.apps.set i x)[i]? = some x := by
      intro x
      rw [List.getElem?_set]
      simp [hlt]
    cases hrel : get_latest_release o cfg.github_repo cfg.pre_release cfg.tag_regex with
    | none =>
      rw [process_app_matched_norel cfg o S i e0 h hrel]
      exact ⟨refresh_entry cfg o e0, hset _, rfl, fun _ => rfl⟩
    | some release =>
      cases hsel : select_best_ipa release.assets cfg o with
      | none =>
        rw [process_app_matched_noasset cfg o S i e0 release h hrel hsel]
        exact ⟨refresh_entry cfg o e0, hset _, rfl, fun hc => Option.noConfusion hc⟩
      | some a =>
        cases hskip : (refresh_entry cfg o e0).versions.any
            (fun v => decide (v.downloadURL = a.browser_download_url)) with
        | true =>
          rw [process_app_matched_skip cfg o S i e0 release a h hrel hsel hskip]
          exact ⟨refresh_entry cfg o e0, hset _, rfl, fun hc => Option.noConfusion hc⟩
        | false =>
          cases hdl : o.download a.browser_download_url with
          | none =>
            rw [process_app_matched_dlfail cfg o S i e0 release a h hrel hsel hskip hdl]
            exact ⟨refresh_entry cfg o e0, hset _, rfl, fun hc => Option.noConfusion hc⟩
          | some dres =>
            rw [process_app_matched_dl cfg o S i e0 release a dres h hrel hsel hskip hdl]
            exact ⟨update_matched cfg o release a dres (refresh_entry cfg o e0),
              hset _, rfl, fun hc => Option.noConfusion hc⟩
  · intro T hnone e2 hmem
    cases hrel : get_latest_release o cfg.github_repo cfg.pre_release cfg.tag_regex with
    | none =>
      rw [process_app_unmatched_norel cfg o T hnone hrel] at hmem
      exact Or.inl hmem
    | some release =>
      cases hsel : select_best_ipa release.assets cfg o with
      | none =>
        rw [process_app_unmatched_noasset cfg o T release hnone hrel hsel] at hmem
        exact Or.inl hmem
      | some a =>
        cases hdl : o.download a.browser_download_url with
        | none =>
          rw [process_app_unmatched_dlfail cfg o T release a hnone hrel hsel hdl] at hmem
          exact Or.inl hmem
        | some dres =>
          rw [process_app_unmatched_dl cfg o T release a dres hnone hrel hsel hdl] at hmem
          simp only [List.mem_append, List.mem_singleton] at hmem
          rcases hmem with h1 | h2
          · exact Or.inl h1
          · exact Or.inr (h2 ▸ rfl)

/-- The single version record of `entry_bar`. -/
def version_bar : VersionEntry :=
  { version := ("1.0".data), date := ("2024-01-01".data),
    localizedDescription := ("Update".data), downloadURL := ("https://dl/bar.ipa".data),
    size := 10, sha256 := ("ff".data) }

/-- An entry tracked as `org/bar`, with a `permissions` object present. -/
def entry_bar : AppEntry :=
  { name := ("Bar".data), githubRepo := ("org/bar".data),
    bundleIdentifier := ("com.bar".data), developerName := ("org".data),
    version := ("1.0".data), versionDate := ("2024-01-01".data),
    versionDescription := ("Update".data), downloadURL := ("https://dl/bar.ipa".data),
    localizedDescription := ("Bar app".data), iconURL := [],
    tintColor := ("#AABBCC".data), size := 10, sha256 := ("ff".data),
    permissions := some [], screenshotURLs := [],
    versions := [version_bar] }

/-- The curated record for `entry_bar`. -/
def cfg_bar : AppConfig :=
  { name := ("Bar".data), github_repo := ("org/bar".data), pre_release := false,
    tag_regex := none, ipa_regex := none, icon_url := none, tint_color := none }

/-- C10 witness: on a one-entry catalog matching `cfg_bar`, with an oracle
whose every request fails (so no release is found), the processed entry has
its `permissions` key removed and its version history untouched. -/
theorem c10_permissions_refresh_witness :
    ∃ e1, (process_app cfg_bar oracle_net_fail
        { name := ("s".data), identifier := ("i".data), apps := [entry_bar], news := [] }).apps[0]?
        = some e1 ∧ e1.permissions = none ∧
      (get_latest_release oracle_net_fail cfg_bar.github_repo cfg_bar.pre_release
          cfg_bar.tag_regex = none → e1.versions = entry_bar.versions) :=
  (c10_permissions_refresh cfg_bar oracle_net_fail
    { name := ("s".data), identifier := ("i".data), apps := [entry_bar], news := [] }
    0 entry_bar (by decide)).1

theorem process_app_sync_configs (cfg : AppConfig) (o : Oracle) (S : SourceData)
    (apps_list : List AppConfig) : (process_app_sync cfg o S apps_list).2 = apps_list := rfl

theorem update_repo_fold_configs (o : Oracle) (cfgs0 : List AppConfig) :
    ∀ (s : SourceData) (cs : List AppConfig),
      (cfgs0.foldl (fun (acc : SourceData × List AppConfig) cfg =>
        process_app_sync cfg o acc.1 acc.2) (s, cs)).2 = cs := by
  induction cfgs0 with
  | nil => intro s cs; rfl
  | cons c rest ih => intro s cs; exact ih _ cs

/-- C8: the curated-list sync-back is dead code: `found_icon_auto` is bound
to `None` at line 234 of `process_app` and never assigned afterwards, so the
`if found_icon_auto and apps_list_to_update is not None` block never fires,
`process_app` never modifies the curated list, `update_repo`'s
`apps != original_apps` test is always false and `apps.json` is never
rewritten — even on inputs where the Icon Discoverer finds an icon and the
config's override is empty. -/
theorem c8_icon_sync_never_fires :
    (∀ (cfg : AppConfig) (o : Oracle) (S : SourceData) (apps_list : List AppConfig),
      (process_app_sync cfg o S apps_list).2 = apps_list) ∧
    (∀ (cfgs : List AppConfig) (o : Oracle) (src0 : SourceData) (nm idf : Str),
      (update_repo cfgs o src0 nm idf).2 = none) ∧
    find_best_icon oracle_icon_repo ("o/r".data) ≠ none := by
  refine ⟨fun cfg o S l => rfl, ?_, by decide⟩
  intro cfgs o src0 nm idf
  simp only [update_repo, update_repo_fold_configs, if_pos rfl]
  simp

theorem refresh_icon_fix (cfg : AppConfig) (o : Oracle) (cur : Str) :
    refresh_icon cfg o (refresh_icon cfg o cur) = refresh_icon cfg o cur := by
  by_cases hc : (!(cfg.icon_url.getD []).isEmpty
      && !sentinel_none_icon (cfg.icon_url.getD [])) = true
  · have hb : ∀ y, best0_icon cfg y = cfg.icon_url.getD [] := by
      intro y
      unfold best0_icon
      rw [if_pos hc]
    unfold refresh_icon
    simp only [hb]
  · have hb : ∀ y, best0_icon cfg y = y := by
      intro y
      unfold best0_icon
      rw [if_neg hc]
    unfold refresh_icon
    simp only [hb]
    cases hp : pick_icon_from (find_best_icon o cfg.github_repo) o with
    | none => rfl
    | some ri =>
      by_cases hri : ri.isEmpty = true
      · simp only [hri, if_true]
      · simp only [hri, Bool.false_eq_true, if_false]
        by_cases hbe : cur.isEmpty = true
        · simp only [hbe, if_true]
          simp [hri]
        · simp only [hbe, Bool.false_eq_true, if_false]
          by_cases h1 : (is_square_image ri o && !is_square_image cur o) = true
          · simp only [h1, if_true]
            simp [hri]
          · simp only [h1, Bool.false_eq_true, if_false]
            by_cases h2 : score_icon_path cur < score_icon_path ri
            · simp only [if_pos h2]
              simp [hri]
            · simp only [if_neg h2]
              simp [hbe, h1, if_neg h2]

theorem icon_step_idem (cfg : AppConfig) (o : Oracle) (cur : Str) :
    icon_step cfg o (icon_step cfg o cur) = icon_step cfg o cur := by
  cases h1 : (refresh_icon cfg o cur).isEmpty with
  | true => simp [icon_step, h1]
  | false =>
    have hV : icon_step cfg o cur = refresh_icon cfg o cur := by simp [icon_step, h1]
    rw [hV]
    have hRR := refresh_icon_fix cfg o cur
    simp [icon_step, hRR, h1]

theorem refresh_tint_idem (cfg : AppConfig) (o : Oracle) (ic t : Str) :
    refresh_tint cfg o ic (refresh_tint cfg o ic t) = refresh_tint cfg o ic t := by
  unfold refresh_tint
  cases hct : cfg.tint_color with
  | some t0 =>
    by_cases ht0 : t0.isEmpty = true
    · simp only [ht0, if_true]
      by_cases hbad : (t.isEmpty || decide (t = ("#000000".data))) = true
      · simp only [hbad, if_true]
        cases hx : extract_dominant_color ic o with
        | none =>
          simp only [Option.getD_none, hbad, if_true, hx]
        | some c =>
          simp only [Option.getD_some]
          by_cases hcb : (c.isEmpty || decide (c = ("#000000".data))) = true
          · simp [hcb, hx]
          · simp [hcb]
      · simp only [hbad, Bool.false_eq_true, if_false, hbad]
    · simp only [ht0, Bool.false_eq_true, if_false, ht0]
  | none =>
    by_cases hbad : (t.isEmpty || decide (t = ("#000000".data))) = true
    · simp only [hbad, if_true]
      cases hx : extract_dominant_color ic o with
      | none =>
        simp only [Option.getD_none, hbad, if_true, hx]
      | some c =>
        simp only [Option.getD_some]
        by_cases hcb : (c.isEmpty || decide (c = ("#000000".data))) = true
        · simp [hcb, hx]
        · simp [hcb]
    · simp only [hbad, Bool.false_eq_true, if_false, hbad]

theorem refresh_entry_idem (cfg : AppConfig) (o : Oracle) (e : AppEntry) :
    refresh_entry cfg o (refresh_entry cfg o e) = refresh_entry cfg o e := by
  have hbid : apply_bundle_id_suffix (refresh_entry cfg o e).bundleIdentifier cfg.name
      cfg.github_repo = (refresh_entry cfg o e).bundleIdentifier :=
    bundle_suffix_idem e.bundleIdentifier cfg.name cfg.github_repo
  have hicon : icon_step cfg o (refresh_entry cfg o e).iconURL
      = (refresh_entry cfg o e).iconURL :=
    icon_step_idem cfg o e.iconURL
  have htint : refresh_tint cfg o (icon_step cfg o (refresh_entry cfg o e).iconURL)
      (refresh_entry cfg o e).tintColor = (refresh_entry cfg o e).tintColor := by
    rw [hicon]
    exact refresh_tint_idem cfg o (icon_step cfg o e.iconURL) e.tintColor
  conv_lhs => rw [refresh_entry]
  rw [hbid, htint, hicon]
  have h1 : (refresh_entry cfg o e).name = cfg.name := rfl
  have h2 : (refresh_entry cfg o e).githubRepo = cfg.github_repo := rfl
  have h3 : (refresh_entry cfg o e).permissions = none := rfl
  rw [← h1, ← h2, ← h3]

theorem update_refreshed_fix (cfg : AppConfig) (o : Oracle) (release : Release)
    (a : ReleaseAsset) (dres : DownloadResult) (e : AppEntry) :
    refresh_entry cfg o (update_matched cfg o release a dres (refresh_entry cfg o e))
      = update_matched cfg o release a dres (refresh_entry cfg o e) := by
  have hbid : apply_bundle_id_suffix
      (update_matched cfg o release a dres (refresh_entry cfg o e)).bundleIdentifier
      cfg.name cfg.github_repo
      = (update_matched cfg o release a dres (refresh_entry cfg o e)).bundleIdentifier :=
    bundle_suffix_idem (resolved_meta cfg release dres).2 cfg.name cfg.github_repo
  have hicon : icon_step cfg o
      (update_matched cfg o release a dres (refresh_entry cfg o e)).iconURL
      = (update_matched cfg o release a dres (refresh_entry cfg o e)).iconURL :=
    icon_step_idem cfg o e.iconURL
  have htint : refresh_tint cfg o (icon_step cfg o
      (update_matched cfg o release a dres (refresh_entry cfg o e)).iconURL)
      (update_matched cfg o release a dres (refresh_entry cfg o e)).tintColor
      = (update_matched cfg o release a dres (refresh_entry cfg o e)).tintColor := by
    rw [hicon]
    exact refresh_tint_idem cfg o (icon_step cfg o e.iconURL) e.tintColor
  conv_lhs => rw [refresh_entry]
  rw [hbid, htint, hicon]
  have h1 : (update_matched cfg o release a dres (refresh_entry cfg o e)).name
      = cfg.name := rfl
  have h2 : (update_matched cfg o release a dres (refresh_entry cfg o e)).githubRepo
      = cfg.github_repo := rfl
  have h3 : (update_matched cfg o release a dres (refresh_entry cfg o e)).permissions
      = none := rfl
  rw [← h1, ← h2, ← h3]

theorem pick_icon_singleton (x : Option Str) (o : Oracle) (s : Str)
    (h : pick_icon_from x o = some s) : ∃ c, s = [c] := by
  cases x with
  | none => simp [pick_icon_from] at h
  | some l =>
    cases l with
    | nil => simp [pick_icon_from] at h
    | cons c rest =>
      simp only [pick_icon_from] at h
      cases hf : ((c :: rest).map (fun ch => [ch])).find?
          (fun cand => is_square_image cand o) with
      | some cand =>
        simp only [hf] at h
        cases h
        obtain ⟨ch, _, hch⟩ := List.mem_map.mp (List.mem_of_find?_eq_some hf)
        exact ⟨ch, hch.symm⟩
      | none =>
        simp only [hf] at h
        cases h
        exact ⟨c, rfl⟩

theorem isPrefixOf_two_singleton (a b : Char) (t : List Char) (c : Char) :
    (a :: b :: t).isPrefixOf [c] = false := by
  simp [List.isPrefixOf]

theorem extract_singleton (c : Char) (o : Oracle) :
    extract_dominant_color [c] o = none := by
  have h1 : py_starts [c] ("http://".data) = false := by
    show ("http://".data).isPrefixOf [c] = false
    have he : ("http://".data) = 'h' :: 't' :: ("tp://".data) := rfl
    rw [he]
    exact isPrefixOf_two_singleton _ _ _ c
  have h2 : py_starts [c] ("https://".data) = false := by
    show ("https://".data).isPrefixOf [c] = false
    have he : ("https://".data) = 'h' :: 't' :: ("tps://".data) := rfl
    rw [he]
    exact isPrefixOf_two_singleton _ _ _ c
  unfold extract_dominant_color
  rw [h1, h2]
  simp

theorem refresh_icon_cases (cfg : AppConfig) (o : Oracle) (x : Str)
    (hx : (!(cfg.icon_url.getD []).isEmpty
        && !sentinel_none_icon (cfg.icon_url.getD [])) = true → cfg.icon_url.getD [] = x) :
    refresh_icon cfg o x = x ∨
    ∃ ri, pick_icon_from (find_best_icon o cfg.github_repo) o = some ri ∧
      refresh_icon cfg o x = ri := by
  have hbest : best0_icon cfg x = x := by
    unfold best0_icon
    by_cases hc : (!(cfg.icon_url.getD []).isEmpty
        && !sentinel_none_icon (cfg.icon_url.getD [])) = true
    · rw [if_pos hc]
      exact hx hc
    · rw [if_neg hc]
  have hrw : refresh_icon cfg o x = (
      match pick_icon_from (find_best_icon o cfg.github_repo) o with
      | none => x
      | some ri =>
        if ri.isEmpty then x
        else if x.isEmpty then ri
        else if is_square_image ri o && !is_square_image x o then ri
        else if score_icon_path x < score_icon_path ri then ri
        else x) := by
    unfold refresh_icon
    rw [hbest]
  cases hp : pick_icon_from (find_best_icon o cfg.github_repo) o with
  | none =>
    refine Or.inl ?_
    rw [hrw, hp]
  | some ri =>
    by_cases hri : ri.isEmpty = true
    · refine Or.inl ?_
      rw [hrw, hp]
      simp only [hri, if_true]
    · by_cases hb : x.isEmpty = true
      · refine Or.inr ⟨ri, rfl, ?_⟩
        rw [hrw, hp]
        simp only [hri, Bool.false_eq_true, if_false, hb, if_true]
      · by_cases hsq : (is_square_image ri o && !is_square_image x o) = true
        · refine Or.inr ⟨ri, rfl, ?_⟩
          rw [hrw, hp]
          simp only [hri, Bool.false_eq_true, if_false, hb, hsq, if_true]
        · by_cases hsc : score_icon_path x < score_icon_path ri
          · refine Or.inr ⟨ri, rfl, ?_⟩
            rw [hrw, hp]
            simp only [hri, Bool.false_eq_true, if_false, hb, hsq, if_pos hsc]
          · refine Or.inl ?_
            rw [hrw, hp]
            simp only [hri, Bool.false_eq_true, if_false, hb, hsq, if_neg hsc]

theorem make_new_entry_icon_cfg (cfg : AppConfig) (o : Oracle) (release : Release)
    (a : ReleaseAsset) (dres : DownloadResult)
    (hc : (!(cfg.icon_url.getD []).isEmpty
      && !sentinel_none_icon (cfg.icon_url.getD [])) = true) :
    (make_new_entry cfg o release a dres).iconURL = cfg.icon_url.getD [] := by
  obtain ⟨h1, h2⟩ := (Bool.and_eq_true _ _).mp hc
  rw [Bool.not_eq_true'] at h1 h2
  simp [make_new_entry, h1, h2]

theorem make_new_entry_icon_step (cfg : AppConfig) (o : Oracle) (release : Release)
    (a : ReleaseAsset) (dres : DownloadResult) :
    icon_step cfg o (make_new_entry cfg o release a dres).iconURL
      = (make_new_entry cfg o release a dres).iconURL ∨
    ∃ c : Char, icon_step cfg o (make_new_entry cfg o release a dres).iconURL = [c] := by
  have hx : (!(cfg.icon_url.getD []).isEmpty
      && !sentinel_none_icon (cfg.icon_url.getD [])) = true →
      cfg.icon_url.getD [] = (make_new_entry cfg o release a dres).iconURL :=
    fun hc => (make_new_entry_icon_cfg cfg o release a dres hc).symm
  rcases refresh_icon_cases cfg o (make_new_entry cfg o release a dres).iconURL hx with
    h | ⟨ri, hp, hval⟩
  · left
    unfold icon_step
    rw [h]
    split <;> rfl
  · obtain ⟨c, hc2⟩ := pick_icon_singleton _ o ri hp
    unfold icon_step
    rw [hval]
    by_cases he : ri.isEmpty = true
    · left
      rw [if_pos he]
    · right
      rw [if_neg he]
      exact ⟨c, hc2⟩

theorem make_new_entry_tint_fix (cfg : AppConfig) (o : Oracle) (release : Release)
    (a : ReleaseAsset) (dres : DownloadResult) :
    refresh_tint cfg o (icon_step cfg o (make_new_entry cfg o release a dres).iconURL)
      (make_new_entry cfg o release a dres).tintColor
      = (make_new_entry cfg o release a dres).tintColor := by
  have hext : extract_dominant_color
      (icon_step cfg o (make_new_entry cfg o release a dres).iconURL) o
      = extract_dominant_color (make_new_entry cfg o release a dres).iconURL o ∨
      extract_dominant_color
        (icon_step cfg o (make_new_entry cfg o release a dres).iconURL) o = none := by
    rcases make_new_entry_icon_step cfg o release a dres with h | ⟨c, hc2⟩
    · left
      rw [h]
    · right
      rw [hc2]
      exact extract_singleton c o
  unfold refresh_tint
  cases hct : cfg.tint_color with
  | some t0 =>
    by_cases ht0 : t0.isEmpty = true
    · simp only [ht0, if_true]
      have hE : (make_new_entry cfg o release a dres).tintColor
          = (extract_dominant_color (make_new_entry cfg o release a dres).iconURL o).getD
            ("#000000".data) := by
        simp [make_new_entry, hct, ht0]
      by_cases hbad : ((make_new_entry cfg o release a dres).tintColor.isEmpty
          || decide ((make_new_entry cfg o release a dres).tintColor = ("#000000".data))) = true
      · rw [if_pos hbad]
        rcases hext with hx | hx
        · rw [hx]
          cases hex : extract_dominant_color (make_new_entry cfg o release a dres).iconURL o with
          | none => simp
          | some c0 =>
            rw [hex] at hE
            simp only [Option.getD_some] at hE
            simp [hE]
        · rw [hx]
          simp
      · rw [if_neg hbad]
    · simp only [ht0, Bool.false_eq_true, if_false]
      have hE : (make_new_entry cfg o release a dres).tintColor = t0 := by
        simp [make_new_entry, hct, ht0]
      exact hE.symm
  | none =>
    have hE : (make_new_entry cfg o release a dres).tintColor
        = (extract_dominant_color (make_new_entry cfg o release a dres).iconURL o).getD
          ("#000000".data) := by
      simp [make_new_entry, hct]
    by_cases hbad : ((make_new_entry cfg o release a dres).tintColor.isEmpty
        || decide ((make_new_entry cfg o release a dres).tintColor = ("#000000".data))) = true
    · rw [if_pos hbad]
      rcases hext with hx | hx
      · rw [hx]
        cases hex : extract_dominant_color (make_new_entry cfg o release a dres).iconURL o with
        | none => simp
        | some c0 =>
          rw [hex] at hE
          simp only [Option.getD_some] at hE
          simp [hE]
      · rw [hx]
        simp
    · rw [if_neg hbad]

theorem new_entry_fix (cfg : AppConfig) (o : Oracle) (release : Release)
    (a : ReleaseAsset) (dres : DownloadResult) :
    refresh_entry cfg o (make_new_entry cfg o release a dres)
      = { make_new_entry cfg o release a dres with
          permissions := none,
          iconURL := (refresh_entry cfg o (make_new_entry cfg o release a dres)).iconURL } := by
  have hbid : apply_bundle_id_suffix (make_new_entry cfg o release a dres).bundleIdentifier
      cfg.name cfg.github_repo = (make_new_entry cfg o release a dres).bundleIdentifier :=
    bundle_suffix_idem (resolved_meta cfg release dres).2 cfg.name cfg.github_repo
  have htint := make_new_entry_tint_fix cfg o release a dres
  have h1 : (make_new_entry cfg o release a dres).name = cfg.name := rfl
  have h2 : (make_new_entry cfg o release a dres).githubRepo = cfg.github_repo := rfl
  conv_lhs => rw [refresh_entry]
  rw [hbid, htint, ← h1, ← h2]
  rfl

/-- The per-run catalog fold of `update_repo` (without the dead cfg-list
side channel). -/
def run_fold (o : Oracle) (cfgs : List AppConfig) (S : SourceData) : SourceData :=
  cfgs.foldl (fun s cfg => process_app cfg o s) S

theorem run_fold_cons (o : Oracle) (c : AppConfig) (rest : List AppConfig)
    (S : SourceData) : run_fold o (c :: rest) S = run_fold o rest (process_app c o S) := rfl

/-- The exact-match test of `process_app` line 226, as a Boolean on one
entry. -/
def exact_test (r n : Str) (e : AppEntry) : Bool :=
  decide (e.githubRepo = r ∧ e.name = n)

/-- The repo-match test of `process_app` lines 230-232, as a Boolean on one
entry. -/
def repo_test (r : Str) (e : AppEntry) : Bool := decide (e.githubRepo = r)

theorem find_exact_val (r n : Str) (l : List AppEntry) :
    (find_exact r n l).map (fun p => p.2) = (l.filter (exact_test r n)).head? := by
  induction l with
  | nil => rfl
  | cons x xs ih =>
    simp only [find_exact, List.filter_cons]
    by_cases hx : x.githubRepo = r ∧ x.name = n
    · rw [if_pos hx, if_pos (show exact_test r n x = true from decide_eq_true hx)]
      rfl
    · rw [if_neg hx, if_neg (show ¬exact_test r n x = true by
        simp only [exact_test, decide_eq_true_eq]; exact hx)]
      calc ((find_exact r n xs).map (fun p => (p.1 + 1, p.2))).map (fun p => p.2)
          = (find_exact r n xs).map (fun p => p.2) := by
            cases find_exact r n xs <;> rfl
        _ = (xs.filter (exact_test r n)).head? := ih

theorem repo_matches_val (r : Str) (l : List AppEntry) :
    (repo_matches r l).map (fun p => p.2) = l.filter (repo_test r) := by
  induction l with
  | nil => rfl
  | cons x xs ih =>
    simp only [repo_matches, List.filter_cons]
    by_cases hx : x.githubRepo = r
    · rw [if_pos hx, if_pos (show repo_test r x = true from decide_eq_true hx)]
      rw [List.map_cons]
      congr 1
      calc ((repo_matches r xs).map (fun p => (p.1 + 1, p.2))).map (fun p => p.2)
          = (repo_matches r xs).map (fun p => p.2) := by
            rw [List.map_map]; rfl
        _ = xs.filter (repo_test r) := ih
    · rw [if_neg hx, if_neg (show ¬repo_test r x = true by
        simp only [repo_test, decide_eq_true_eq]; exact hx)]
      calc ((repo_matches r xs).map (fun p => (p.1 + 1, p.2))).map (fun p => p.2)
          = (repo_matches r xs).map (fun p => p.2) := by
            rw [List.map_map]; rfl
        _ = xs.filter (repo_test r) := ih

theorem find_exact_of_head (r n : Str) (l : List AppEntry) (E : AppEntry)
    (h : (l.filter (exact_test r n)).head? = some E) :
    ∃ i, find_exact r n l = some (i, E) := by
  have hv := find_exact_val r n l
  rw [h] at hv
  cases hfe : find_exact r n l with
  | none => rw [hfe] at hv; exact Option.noConfusion hv
  | some p =>
    obtain ⟨i, e2⟩ := p
    rw [hfe] at hv
    simp only [Option.map_some'] at hv
    cases hv
    exact ⟨i, rfl⟩

theorem find_exact_of_filter_nil (r n : Str) (l : List AppEntry)
    (h : l.filter (exact_test r n) = []) : find_exact r n l = none := by
  have hv := find_exact_val r n l
  rw [h] at hv
  simp only [List.head?_nil] at hv
  exact Option.map_eq_none'.mp hv

theorem filter_set_untouched (q : AppEntry → Bool) (l : List AppEntry) :
    ∀ (i : Nat) (x y : AppEntry), l[i]? = some x → q x = false → q y = false →
      (l.set i y).filter q = l.filter q := by
  induction l with
  | nil => intro i x y h; simp at h
  | cons a as ih =>
    intro i x y h hx hy
    cases i with
    | zero =>
      simp only [List.getElem?_cons_zero] at h
      cases h
      simp [List.set_cons_zero, List.filter_cons, hx, hy]
    | succ j =>
      simp only [List.getElem?_cons_succ] at h
      simp only [List.set_cons_succ, List.filter_cons]
      rw [ih j x y h hx hy]

theorem filter_set_singleton (q : AppEntry → Bool) (l : List AppEntry) :
    ∀ (i : Nat) (x y : AppEntry), l.filter q = [] → l[i]? = some x → q y = true →
      (l.set i y).filter q = [y] := by
  induction l with
  | nil => intro i x y _ h; simp at h
  | cons a as ih =>
    intro i x y hnil h hy
    rw [List.filter_cons] at hnil
    have hqa : q a = false := by
      by_cases hqa : q a = true
      · rw [if_pos hqa] at hnil; exact absurd hnil (by simp)
      · exact Bool.eq_false_iff.mpr hqa
    rw [if_neg (by rw [hqa]; simp)] at hnil
    cases i with
    | zero =>
      simp only [List.getElem?_cons_zero] at h
      cases h
      simp [List.set_cons_zero, List.filter_cons, hy, hnil]
    | succ j =>
      simp only [List.getElem?_cons_succ] at h
      simp only [List.set_cons_succ, List.filter_cons, hqa]
      simp only [Bool.false_eq_true, if_false]
      exact ih j x y hnil h hy

theorem filter_set_of_find_exact (r n : Str) (l : List AppEntry) :
    ∀ (i : Nat) (e0 e : AppEntry), find_exact r n l = some (i, e0) →
      exact_test r n e = true →
      ((l.set i e).filter (exact_test r n)).head? = some e := by
  induction l with
  | nil => intro i e0 e h; simp [find_exact] at h
  | cons x xs ih =>
    intro i e0 e h he
    simp only [find_exact] at h
    split at h
    · cases h
      simp [List.set_cons_zero, List.filter_cons, he]
    · rename_i hx
      cases hfe : find_exact r n xs with
      | none => rw [hfe] at h; exact Option.noConfusion h
      | some p =>
        obtain ⟨j, e2⟩ := p
        rw [hfe] at h
        simp only [Option.map_some'] at h
        cases h
        have hqx : exact_test r n x = false := by
          simp only [exact_test, decide_eq_false_iff_not]; exact hx
        simp only [List.set_cons_succ, List.filter_cons, hqx, Bool.false_eq_true, if_false]
        exact ih j e0 e hfe he

theorem forall2_get {α β : Type} {R : α → β → Prop} {l : List α} {l2 : List β}
    (h : List.Forall₂ R l l2) : ∀ (i : Nat) (y : β), l2[i]? = some y →
      ∃ x, l[i]? = some x ∧ R x y := by
  induction h with
  | nil => intro i y h2; simp at h2
  | @cons a b as bs hab htail ih =>
    intro i y h2
    cases i with
    | zero =>
      simp only [List.getElem?_cons_zero] at h2
      cases h2
      exact ⟨a, List.getElem?_cons_zero, hab⟩
    | succ j =>
      simp only [List.getElem?_cons_succ] at h2
      obtain ⟨x, hx, hr⟩ := ih j y h2
      exact ⟨x, by simpa using hx, hr⟩

theorem forall2_set {α β : Type} {R : α → β → Prop} {l : List α} {l2 : List β}
    (h : List.Forall₂ R l l2) : ∀ (i : Nat) (y : β),
      (∀ x, l[i]? = some x → R x y) → List.Forall₂ R l (l2.set i y) := by
  induction h with
  | nil => intro i y _; rw [List.set_nil]; exact List.Forall₂.nil
  | @cons a b as bs hab htail ih =>
    intro i y hy
    cases i with
    | zero =>
      rw [List.set_cons_zero]
      exact List.Forall₂.cons (hy a List.getElem?_cons_zero) htail
    | succ j =>
      rw [List.set_cons_succ]
      exact List.Forall₂.cons hab (ih j y (fun x hx => hy x (by simpa using hx)))

theorem forall2_and {α β : Type} {P Q : α → β → Prop} {l : List α} {l2 : List β}
    (h1 : List.Forall₂ P l l2) : List.Forall₂ Q l l2 →
      List.Forall₂ (fun a b => P a b ∧ Q a b) l l2 := by
  induction h1 with
  | nil => intro _; exact List.Forall₂.nil
  | @cons a b as bs hab htail ih =>
    intro h2
    cases h2 with
    | cons hq hqt => exact List.Forall₂.cons ⟨hab, hq⟩ (ih hqt)

theorem forall2_mem_right {α β : Type} {R : α → β → Prop} {l : List α} {l2 : List β}
    (h : List.Forall₂ R l l2) : ∀ b ∈ l2, ∃ a ∈ l, R a b := by
  induction h with
  | nil => intro b hb; exact absurd hb (List.not_mem_nil b)
  | @cons a b as bs hab htail ih =>
    intro c hc
    rcases List.mem_cons.mp hc with rfl | hc2
    · exact ⟨a, List.mem_cons_self a as, hab⟩
    · obtain ⟨x, hx, hr⟩ := ih c hc2
      exact ⟨x, List.mem_cons_of_mem a hx, hr⟩

/-- The pointwise relation between the catalogs persisted by the first and
the second run: an entry is either byte-identical, or it differs only in
the dropped `permissions` object and a re-selected `iconURL` (this happens
to entries created by the first run). -/
def run2_rel (e1 e2 : AppEntry) : Prop :=
  e2 = e1 ∨ e2 = { e1 with permissions := none, iconURL := e2.iconURL }

theorem run2_rel_repo (e1 e2 : AppEntry) (h : run2_rel e1 e2) :
    e2.githubRepo = e1.githubRepo := by
  rcases h with h | h
  · rw [h]
  · conv_lhs => rw [h]

theorem run2_rel_keep (cfgs : List AppConfig) (e1 e2 : AppEntry) (h : run2_rel e1 e2) :
    prune_keep cfgs e2 = prune_keep cfgs e1 := by
  rcases h with h | h
  · rw [h]
  · conv_lhs => rw [h]
    rfl

theorem run2_rel_key (cfgs : List AppConfig) (e1 e2 : AppEntry) (h : run2_rel e1 e2) :
    sort_key cfgs e2 = sort_key cfgs e1 := by
  rcases h with h | h
  · rw [h]
  · conv_lhs => rw [h]
    rfl

theorem run2_rel_chain (a b c : AppEntry) (hab : run2_rel a b)
    (hc : c = { b with permissions := none, iconURL := c.iconURL }) : run2_rel a c := by
  rcases hab with h | h
  · subst h
    exact Or.inr hc
  · right
    conv_lhs => rw [hc, h]

theorem match_lists_congr (R n : Str) {B l : List AppEntry}
    (h : List.Forall₂ (fun a b => b.githubRepo = a.githubRepo ∧
      (a.githubRepo = R → b = a)) B l) :
    find_exact R n B = find_exact R n l ∧ repo_matches R B = repo_matches R l := by
  induction h with
  | nil => exact ⟨rfl, rfl⟩
  | @cons a b as bs hab htail ih =>
    obtain ⟨hrepo, hfix⟩ := hab
    constructor
    · simp only [find_exact]
      by_cases ha : a.githubRepo = R ∧ a.name = n
      · have hba : b = a := hfix ha.1
        subst hba
        rw [if_pos ha, if_pos ha]
      · have hbm : ¬(b.githubRepo = R ∧ b.name = n) := by
          intro hbc
          have haR : a.githubRepo = R := hrepo.symm.trans hbc.1
          have hba := hfix haR
          exact ha ⟨haR, by rw [← hba]; exact hbc.2⟩
        rw [if_neg ha, if_neg hbm, ih.1]
    · simp only [repo_matches]
      by_cases ha : a.githubRepo = R
      · have hba : b = a := hfix ha
        subst hba
        rw [if_pos ha, if_pos ha, ih.2]
      · have hbm : ¬(b.githubRepo = R) := by rw [hrepo]; exact ha
        rw [if_neg ha, if_neg hbm, ih.2]

/-- The release/asset pipeline of `process_app` cannot add a version record
to `e`: either no release or asset resolves, or `e` already records the
selected asset's download URL, or the download fails. -/
def no_new_version (cfg : AppConfig) (o : Oracle) (e : AppEntry) : Prop :=
  match get_latest_release o cfg.github_repo cfg.pre_release cfg.tag_regex with
  | none => True
  | some release =>
    match select_best_ipa release.assets cfg o with
    | none => True
    | some a =>
      e.versions.any (fun v => decide (v.downloadURL = a.browser_download_url)) = true ∨
      o.download a.browser_download_url = none

/-- The release/asset pipeline of `process_app` cannot create a new entry:
some stage before a successful download fails. -/
def cfg_silent (cfg : AppConfig) (o : Oracle) : Prop :=
  match get_latest_release o cfg.github_repo cfg.pre_release cfg.tag_regex with
  | none => True
  | some release =>
    match select_best_ipa release.assets cfg o with
    | none => True
    | some a => o.download a.browser_download_url = none

/-- An entry the reconciliation pass leaves alone up to the permissions pop
and the icon re-selection: the metadata refresh moves it at most to
`{e with permissions := none, iconURL := _}`, and the release pipeline adds
no version record. -/
def entry_settled (cfg : AppConfig) (o : Oracle) (e : AppEntry) : Prop :=
  refresh_entry cfg o e
      = { e with permissions := none, iconURL := (refresh_entry cfg o e).iconURL } ∧
  no_new_version cfg o e

/-- The run-1 postcondition on a catalog, per config: either the first
exactly-matching entry is settled, or no entry matches exactly, the repo
matches are not a singleton, and the config's pipeline is silent. -/
def good_for (cfg : AppConfig) (o : Oracle) (l : List AppEntry) : Prop :=
  (∃ E, (l.filter (exact_test cfg.github_repo cfg.name)).head? = some E ∧
    entry_settled cfg o E) ∨
  (l.filter (exact_test cfg.github_repo cfg.name) = [] ∧
    (l.filter (repo_test cfg.github_repo)).length ≠ 1 ∧ cfg_silent cfg o)

theorem process_app_of_settled (cfg : AppConfig) (o : Oracle) (S : SourceData)
    (i : Nat) (E : AppEntry)
    (h : match_entry cfg.github_repo cfg.name S.apps = some (i, E))
    (hnn : no_new_version cfg o E) :
    process_app cfg o S = { S with apps := S.apps.set i (refresh_entry cfg o E) } := by
  cases hrel : get_latest_release o cfg.github_repo cfg.pre_release cfg.tag_regex with
  | none => exact process_app_matched_norel cfg o S i E h hrel
  | some release =>
    cases hsel : select_best_ipa release.assets cfg o with
    | none => exact process_app_matched_noasset cfg o S i E release h hrel hsel
    | some a =>
      simp only [no_new_version, hrel, hsel] at hnn
      by_cases hskip : (refresh_entry cfg o E).versions.any
          (fun v => decide (v.downloadURL = a.browser_download_url)) = true
      · exact process_app_matched_skip cfg o S i E release a h hrel hsel hskip
      · have hskipf : (refresh_entry cfg o E).versions.any
            (fun v => decide (v.downloadURL = a.browser_download_url)) = false :=
          Bool.eq_false_iff.mpr hskip
        have hdl : o.download a.browser_download_url = none := by
          rcases hnn with hv | hd
          · exact absurd hv hskip
          · exact hd
        exact process_app_matched_dlfail cfg o S i E release a h hrel hsel hskipf hdl

theorem process_app_of_silent (cfg : AppConfig) (o : Oracle) (S : SourceData)
    (h : match_entry cfg.github_repo cfg.name S.apps = none)
    (hs : cfg_silent cfg o) : process_app cfg o S = S := by
  cases hrel : get_latest_release o cfg.github_repo cfg.pre_release cfg.tag_regex with
  | none => exact process_app_unmatched_norel cfg o S h hrel
  | some release =>
    cases hsel : select_best_ipa release.assets cfg o with
    | none => exact process_app_unmatched_noasset cfg o S release h hrel hsel
    | some a =>
      simp only [cfg_silent, hrel, hsel] at hs
      exact process_app_unmatched_dlfail cfg o S release a h hrel hsel hs

/-- Every branch of `process_app` either leaves the catalog alone, replaces
one entry owned by the config's repo with another entry of that repo, or
appends one entry of that repo. -/
theorem process_app_shape (cfg : AppConfig) (o : Oracle) (S : SourceData) :
    process_app cfg o S = S ∨
    (∃ i E0 X, S.apps[i]? = some E0 ∧ E0.githubRepo = cfg.github_repo ∧
      X.githubRepo = cfg.github_repo ∧
      process_app cfg o S = { S with apps := S.apps.set i X }) ∨
    (∃ X, X.githubRepo = cfg.github_repo ∧
      process_app cfg o S = { S with apps := S.apps ++ [X] }) := by
  cases hm : match_entry cfg.github_repo cfg.name S.apps with
  | some p =>
    obtain ⟨i, E0⟩ := p
    obtain ⟨hget, hrepo⟩ := match_entry_get cfg.github_repo cfg.name S.apps i E0 hm
    right; left
    cases hrel : get_latest_release o cfg.github_repo cfg.pre_release cfg.tag_regex with
    | none =>
      exact ⟨i, E0, refresh_entry cfg o E0, hget, hrepo, rfl,
        process_app_matched_norel cfg o S i E0 hm hrel⟩
    | some release =>
      cases hsel : select_best_ipa release.assets cfg o with
      | none =>
        exact ⟨i, E0, refresh_entry cfg o E0, hget, hrepo, rfl,
          process_app_matched_noasset cfg o S i E0 release hm hrel hsel⟩
      | some a =>
        by_cases hskip : (refresh_entry cfg o E0).versions.any
            (fun v => decide (v.downloadURL = a.browser_download_url)) = true
        · exact ⟨i, E0, refresh_entry cfg o E0, hget, hrepo, rfl,
            process_app_matched_skip cfg o S i E0 release a hm hrel hsel hskip⟩
        · have hskipf : (refresh_entry cfg o E0).versions.any
              (fun v => decide (v.downloadURL = a.browser_download_url)) = false :=
            Bool.eq_false_iff.mpr hskip
          cases hdl : o.download a.browser_download_url with
          | none =>
            exact ⟨i, E0, refresh_entry cfg o E0, hget, hrepo, rfl,
              process_app_matched_dlfail cfg o S i E0 release a hm hrel hsel hskipf hdl⟩
          | some dres =>
            exact ⟨i, E0, update_matched cfg o release a dres (refresh_entry cfg o E0),
              hget, hrepo, rfl,
              process_app_matched_dl cfg o S i E0 release a dres hm hrel hsel hskipf hdl⟩
  | none =>
    cases hrel : get_latest_release o cfg.github_repo cfg.pre_release cfg.tag_regex with
    | none => exact Or.inl (process_app_unmatched_norel cfg o S hm hrel)
    | some release =>
      cases hsel : select_best_ipa release.assets cfg o with
      | none => exact Or.inl (process_app_unmatched_noasset cfg o S release hm hrel hsel)
      | some a =>
        cases hdl : o.download a.browser_download_url with
        | none => exact Or.inl (process_app_unmatched_dlfail cfg o S release a hm hrel hsel hdl)
        | some dres =>
          exact Or.inr (Or.inr ⟨make_new_entry cfg o release a dres, rfl,
            process_app_unmatched_dl cfg o S release a dres hm hrel hsel hdl⟩)

theorem process_app_meta (cfg : AppConfig) (o : Oracle) (S : SourceData) :
    (process_app cfg o S).name = S.name ∧ (process_app cfg o S).identifier = S.identifier ∧
    (process_app cfg o S).news = S.news := by
  rcases process_app_shape cfg o S with h | ⟨i, E0, X, _, _, _, h⟩ | ⟨X, _, h⟩ <;>
    rw [h] <;> exact ⟨rfl, rfl, rfl⟩

theorem process_app_filter_inv (cfg : AppConfig) (o : Oracle) (S : SourceData)
    (q : AppEntry → Bool) (hq : ∀ e, e.githubRepo = cfg.github_repo → q e = false) :
    (process_app cfg o S).apps.filter q = S.apps.filter q := by
  rcases process_app_shape cfg o S with h | ⟨i, E0, X, hget, hE0, hX, h⟩ | ⟨X, hX, h⟩
  · rw [h]
  · rw [h]
    exact filter_set_untouched q S.apps i E0 X hget (hq E0 hE0) (hq X hX)
  · rw [h]
    simp [List.filter_append, hq X hX]

theorem settled_fix_of_idem (cfg : AppConfig) (o : Oracle) (X : AppEntry)
    (hid : refresh_entry cfg o X = X) (hperm : X.permissions = none) :
    refresh_entry cfg o X
      = { X with permissions := none, iconURL := (refresh_entry cfg o X).iconURL } := by
  rw [hid]
  conv_rhs => rw [← hperm]

theorem good_after_own (cfg : AppConfig) (o : Oracle) (S : SourceData) :
    good_for cfg o (process_app cfg o S).apps := by
  cases hmv : match_entry cfg.github_repo cfg.name S.apps with
  | some p =>
    obtain ⟨i, E0⟩ := p
    have hsethead : ∀ X : AppEntry, exact_test cfg.github_repo cfg.name X = true →
        ((S.apps.set i X).filter (exact_test cfg.github_repo cfg.name)).head? = some X := by
      intro X hX
      have hm := hmv
      unfold match_entry at hm
      cases hfe : find_exact cfg.github_repo cfg.name S.apps with
      | some q =>
        simp only [hfe] at hm
        obtain ⟨j, e⟩ := q
        cases hm
        exact filter_set_of_find_exact cfg.github_repo cfg.name S.apps _ _ X hfe hX
      | none =>
        simp only [hfe] at hm
        have hxm : S.apps.filter (exact_test cfg.github_repo cfg.name) = [] := by
          have hv := find_exact_val cfg.github_repo cfg.name S.apps
          rw [hfe] at hv
          simp only [Option.map_none'] at hv
          exact List.head?_eq_none_iff.mp hv.symm
        cases hrm : repo_matches cfg.github_repo S.apps with
        | nil =>
          simp only [hrm] at hm
          exact Option.noConfusion hm
        | cons q t =>
          cases t with
          | nil =>
            simp only [hrm] at hm
            cases hm
            have hget := (repo_matches_mem cfg.github_repo S.apps (i, E0)
              (by rw [hrm]; exact List.mem_singleton_self _)).1
            rw [filter_set_singleton (exact_test cfg.github_repo cfg.name) S.apps
              i E0 X hxm hget hX]
            rfl
          | cons q2 t2 =>
            simp only [hrm] at hm
            exact Option.noConfusion hm
    have main : ∀ X : AppEntry, exact_test cfg.github_repo cfg.name X = true →
        entry_settled cfg o X →
        good_for cfg o (({ S with apps := S.apps.set i X } : SourceData).apps) := by
      intro X hX hset
      unfold good_for
      left
      exact ⟨X, hsethead X hX, hset⟩
    cases hrel : get_latest_release o cfg.github_repo cfg.pre_release cfg.tag_regex with
    | none =>
      rw [process_app_matched_norel cfg o S i E0 hmv hrel]
      refine main (refresh_entry cfg o E0) (decide_eq_true ⟨rfl, rfl⟩)
        ⟨settled_fix_of_idem cfg o _ (refresh_entry_idem cfg o E0) rfl, ?_⟩
      simp only [no_new_version, hrel]
    | some release =>
      cases hsel : select_best_ipa release.assets cfg o with
      | none =>
        rw [process_app_matched_noasset cfg o S i E0 release hmv hrel hsel]
        refine main (refresh_entry cfg o E0) (decide_eq_true ⟨rfl, rfl⟩)
          ⟨settled_fix_of_idem cfg o _ (refresh_entry_idem cfg o E0) rfl, ?_⟩
        simp only [no_new_version, hrel, hsel]
      | some a =>
        by_cases hskip : (refresh_entry cfg o E0).versions.any
            (fun v => decide (v.downloadURL = a.browser_download_url)) = true
        · rw [process_app_matched_skip cfg o S i E0 release a hmv hrel hsel hskip]
          refine main (refresh_entry cfg o E0) (decide_eq_true ⟨rfl, rfl⟩)
            ⟨settled_fix_of_idem cfg o _ (refresh_entry_idem cfg o E0) rfl, ?_⟩
          simp only [no_new_version, hrel, hsel]
          exact Or.inl hskip
        · have hskipf : (refresh_entry cfg o E0).versions.any
              (fun v => decide (v.downloadURL = a.browser_download_url)) = false :=
            Bool.eq_false_iff.mpr hskip
          cases hdl : o.download a.browser_download_url with
          | none =>
            rw [process_app_matched_dlfail cfg o S i E0 release a hmv hrel hsel hskipf hdl]
            refine main (refresh_entry cfg o E0) (decide_eq_true ⟨rfl, rfl⟩)
              ⟨settled_fix_of_idem cfg o _ (refresh_entry_idem cfg o E0) rfl, ?_⟩
            simp only [no_new_version, hrel, hsel]
            exact Or.inr hdl
          | some dres =>
            rw [process_app_matched_dl cfg o S i E0 release a dres hmv hrel hsel hskipf hdl]
            refine main (update_matched cfg o release a dres (refresh_entry cfg o E0))
              (decide_eq_true ⟨rfl, rfl⟩)
              ⟨settled_fix_of_idem cfg o _ (update_refreshed_fix cfg o release a dres E0) rfl, ?_⟩
            simp only [no_new_version, hrel, hsel]
            left
            have hv : (update_matched cfg o release a dres (refresh_entry cfg o E0)).versions
                = make_version_entry cfg release a dres :: (refresh_entry cfg o E0).versions :=
              rfl
            have hd : (make_version_entry cfg release a dres).downloadURL
                = a.browser_download_url := rfl
            rw [hv, List.any_cons, hd]
            simp
  | none =>
    have hfe : find_exact cfg.github_repo cfg.name S.apps = none := by
      have hm := hmv
      unfold match_entry at hm
      cases hfe : find_exact cfg.github_repo cfg.name S.apps with
      | some q =>
        simp only [hfe] at hm
        exact hm
      | none => rfl
    have hxm : S.apps.filter (exact_test cfg.github_repo cfg.name) = [] := by
      have hv := find_exact_val cfg.github_repo cfg.name S.apps
      rw [hfe] at hv
      simp only [Option.map_none'] at hv
      exact List.head?_eq_none_iff.mp hv.symm
    have hcnt : (S.apps.filter (repo_test cfg.github_repo)).length ≠ 1 := by
      rw [← repo_matches_val, List.length_map]
      have hm := hmv
      unfold match_entry at hm
      simp only [hfe] at hm
      cases hrm : repo_matches cfg.github_repo S.apps with
      | nil => simp
      | cons q t =>
        cases t with
        | nil =>
          simp only [hrm] at hm
          exact Option.noConfusion hm
        | cons q2 t2 =>
          simp only [List.length_cons]
          omega
    cases hrel : get_latest_release o cfg.github_repo cfg.pre_release cfg.tag_regex with
    | none =>
      rw [process_app_unmatched_norel cfg o S hmv hrel]
      unfold good_for
      right
      refine ⟨hxm, hcnt, ?_⟩
      simp only [cfg_silent, hrel]
    | some release =>
      cases hsel : select_best_ipa release.assets cfg o with
      | none =>
        rw [process_app_unmatched_noasset cfg o S release hmv hrel hsel]
        unfold good_for
        right
        refine ⟨hxm, hcnt, ?_⟩
        simp only [cfg_silent, hrel, hsel]
      | some a =>
        cases hdl : o.download a.browser_download_url with
        | none =>
          rw [process_app_unmatched_dlfail cfg o S release a hmv hrel hsel hdl]
          unfold good_for
          right
          refine ⟨hxm, hcnt, ?_⟩
          simp only [cfg_silent, hrel, hsel]
          exact hdl
        | some dres =>
          rw [process_app_unmatched_dl cfg o S release a dres hmv hrel hsel hdl]
          unfold good_for
          left
          refine ⟨make_new_entry cfg o release a dres, ?_, new_entry_fix cfg o release a dres, ?_⟩
          · have hXt : exact_test cfg.github_repo cfg.name
                (make_new_entry cfg o release a dres) = true := decide_eq_true ⟨rfl, rfl⟩
            show ((S.apps ++ [make_new_entry cfg o release a dres]).filter
              (exact_test cfg.github_repo cfg.name)).head? = some _
            rw [List.filter_append, hxm]
            simp [List.filter_cons, hXt]
          · simp only [no_new_version, hrel, hsel]
            left
            have hv : (make_new_entry cfg o release a dres).versions
                = [make_version_entry cfg release a dres] := rfl
            have hd : (make_version_entry cfg release a dres).downloadURL
                = a.browser_download_url := rfl
            rw [hv, List.any_cons, hd]
            simp

theorem good_preserved_fold (o : Oracle) (todo : List AppConfig) (cfg : AppConfig) :
    ∀ S : SourceData, cfg.github_repo ∉ todo.map (fun c => c.github_repo) →
      good_for cfg o S.apps → good_for cfg o (run_fold o todo S).apps := by
  induction todo with
  | nil => intro S _ h; exact h
  | cons c rest ih =>
    intro S hmem hgood
    rw [run_fold_cons]
    have hne : c.github_repo ≠ cfg.github_repo := fun h =>
      hmem (by rw [List.map_cons, ← h]; exact List.mem_cons_self _ _)
    apply ih (process_app c o S)
      (fun h => hmem (by rw [List.map_cons]; exact List.mem_cons_of_mem _ h))
    have h1 := process_app_filter_inv c o S (exact_test cfg.github_repo cfg.name)
      (fun e he => decide_eq_false (fun hc => hne (he.symm.trans hc.1)))
    have h2 := process_app_filter_inv c o S (repo_test cfg.github_repo)
      (fun e he => decide_eq_false (fun hc => hne (he.symm.trans hc)))
    unfold good_for at hgood ⊢
    rw [h1, h2]
    exact hgood

theorem run1_good (o : Oracle) : ∀ (cfgs : List AppConfig),
    (cfgs.map (fun c => c.github_repo)).Nodup →
    ∀ (S : SourceData) (cfg : AppConfig), cfg ∈ cfgs →
      good_for cfg o (run_fold o cfgs S).apps := by
  intro cfgs
  induction cfgs with
  | nil => intro _ S cfg h; exact absurd h (List.not_mem_nil cfg)
  | cons c rest ih =>
    intro hnd S cfg hc
    rw [List.map_cons, List.nodup_cons] at hnd
    rw [run_fold_cons]
    rcases List.mem_cons.mp hc with rfl | hcr
    · exact good_preserved_fold o rest cfg (process_app cfg o S) hnd.1
        (good_after_own cfg o S)
    · exact ih hnd.2 (process_app c o S) cfg hcr

theorem filter_stable_insert_pos {α : Type} (q : α → Bool) (le : α → α → Bool) (x : α)
    (hx : q x = true) (hq : ∀ y, q y = true → (le y x && !le x y) = false) :
    ∀ ys : List α, (stable_insert le x ys).filter q = x :: ys.filter q := by
  intro ys
  induction ys with
  | nil => simp [stable_insert, List.filter_cons, hx]
  | cons y ys ih =>
    simp only [stable_insert]
    by_cases hcond : (le y x && !le x y) = true
    · rw [if_pos hcond]
      have hqy : q y = false := by
        by_cases hqy : q y = true
        · exact absurd hcond (by rw [hq y hqy]; simp)
        · exact Bool.eq_false_iff.mpr hqy
      simp only [List.filter_cons, hqy, Bool.false_eq_true, if_false]
      exact ih
    · rw [if_neg hcond]
      simp only [List.filter_cons, hx, if_true]

theorem filter_stable_insert_neg {α : Type} (q : α → Bool) (le : α → α → Bool) (x : α)
    (hx : q x = false) :
    ∀ ys : List α, (stable_insert le x ys).filter q = ys.filter q := by
  intro ys
  induction ys with
  | nil => simp [stable_insert, List.filter_cons, hx]
  | cons y ys ih =>
    simp only [stable_insert]
    by_cases hcond : (le y x && !le x y) = true
    · rw [if_pos hcond]
      simp only [List.filter_cons]
      rw [ih]
    · rw [if_neg hcond]
      simp only [List.filter_cons, hx, Bool.false_eq_true, if_false]

theorem filter_py_sorted {α : Type} (q : α → Bool) (le : α → α → Bool)
    (hq : ∀ a b, q a = true → q b = true → le a b = true) :
    ∀ l : List α, (py_sorted le l).filter q = l.filter q := by
  intro l
  induction l with
  | nil => rfl
  | cons x xs ih =>
    simp only [py_sorted]
    by_cases hx : q x = true
    · rw [filter_stable_insert_pos q le x hx
        (fun y hy => by rw [hq x y hx hy]; simp), ih, List.filter_cons, if_pos hx]
    · have hx2 : q x = false := Bool.eq_false_iff.mpr hx
      rw [filter_stable_insert_neg q le x hx2, ih, List.filter_cons]
      simp [hx2]

theorem repo_not_empty_list (cfg : AppConfig) (hne : cfg.github_repo ≠ []) :
    cfg.github_repo.isEmpty = false := by
  cases h : cfg.github_repo with
  | nil => exact absurd h hne
  | cons a t => rfl

theorem prune_keep_of_repo (cfgs : List AppConfig) (cfg : AppConfig) (e : AppEntry)
    (hc : cfg ∈ cfgs) (hne : cfg.github_repo ≠ []) (he : e.githubRepo = cfg.github_repo) :
    prune_keep cfgs e = true := by
  unfold prune_keep
  rw [he, repo_not_empty_list cfg hne]
  simp only [Bool.not_false, if_true, decide_eq_true_eq]
  exact List.mem_map.mpr ⟨cfg, hc, rfl⟩

theorem sort_key_of_repo (cfgs : List AppConfig) (cfg : AppConfig) (e : AppEntry)
    (hne : cfg.github_repo ≠ []) (he : e.githubRepo = cfg.github_repo) :
    sort_key cfgs e = app_order cfgs cfg.github_repo := by
  unfold sort_key
  rw [he, repo_not_empty_list cfg hne]
  simp

theorem good_transfer (cfg : AppConfig) (o : Oracle) (cfgs : List AppConfig)
    (hc : cfg ∈ cfgs) (hne : cfg.github_repo ≠ []) (A : List AppEntry)
    (hg : good_for cfg o A) :
    good_for cfg o (py_sorted (fun a b => decide (sort_key cfgs a ≤ sort_key cfgs b))
      (A.filter (prune_keep cfgs))) := by
  have hstep : ∀ q : AppEntry → Bool, (∀ e, q e = true → e.githubRepo = cfg.github_repo) →
      (py_sorted (fun a b => decide (sort_key cfgs a ≤ sort_key cfgs b))
        (A.filter (prune_keep cfgs))).filter q = A.filter q := by
    intro q hq
    rw [filter_py_sorted q _ (fun a b ha hb => by
      rw [decide_eq_true_eq, sort_key_of_repo cfgs cfg a hne (hq a ha),
        sort_key_of_repo cfgs cfg b hne (hq b hb)])]
    rw [List.filter_filter]
    apply List.filter_congr
    intro e he
    by_cases hqe : q e = true
    · rw [hqe, prune_keep_of_repo cfgs cfg e hc hne (hq e hqe)]
      rfl
    · rw [Bool.eq_false_iff.mpr hqe]
      rfl
  unfold good_for at hg ⊢
  rw [hstep (exact_test cfg.github_repo cfg.name)
      (fun e he => (of_decide_eq_true he).1),
    hstep (repo_test cfg.github_repo) (fun e he => of_decide_eq_true he)]
  exact hg

theorem run_fold_meta (o : Oracle) (cfgs : List AppConfig) : ∀ S : SourceData,
    (run_fold o cfgs S).name = S.name ∧ (run_fold o cfgs S).identifier = S.identifier ∧
    (run_fold o cfgs S).news = S.news := by
  induction cfgs with
  | nil => intro S; exact ⟨rfl, rfl, rfl⟩
  | cons c rest ih =>
    intro S
    rw [run_fold_cons]
    obtain ⟨h1, h2, h3⟩ := ih (process_app c o S)
    obtain ⟨g1, g2, g3⟩ := process_app_meta c o S
    exact ⟨h1.trans g1, h2.trans g2, h3.trans g3⟩

theorem fold_sync_eq (o : Oracle) : ∀ (L : List AppConfig) (s : SourceData)
    (cs : List AppConfig),
    L.foldl (fun (acc : SourceData × List AppConfig) cfg =>
      process_app_sync cfg o acc.1 acc.2) (s, cs) = (run_fold o L s, cs) := by
  intro L
  induction L with
  | nil => intro s cs; rfl
  | cons c rest ih =>
    intro s cs
    show rest.foldl _ (process_app_sync c o s cs) = _
    have h1 : process_app_sync c o s cs = (process_app c o s, cs) := rfl
    rw [h1, ih (process_app c o s) cs]
    rfl

theorem update_repo_fst (cfgs : List AppConfig) (o : Oracle) (src0 : SourceData)
    (sn si : Str) :
    (update_repo cfgs o src0 sn si).1
      = { run_fold o cfgs { src0 with name := sn, identifier := si } with
          apps := py_sorted (fun a b => decide (sort_key cfgs a ≤ sort_key cfgs b))
            ((run_fold o cfgs { src0 with name := sn, identifier := si }).apps.filter
              (prune_keep cfgs)) } := by
  simp only [update_repo, fold_sync_eq]

theorem update_repo_meta (cfgs : List AppConfig) (o : Oracle) (src0 : SourceData)
    (sn si : Str) :
    (update_repo cfgs o src0 sn si).1.name = sn ∧
    (update_repo cfgs o src0 sn si).1.identifier = si ∧
    (update_repo cfgs o src0 sn si).1.news = src0.news := by
  rw [update_repo_fst]
  obtain ⟨h1, h2, h3⟩ := run_fold_meta o cfgs { src0 with name := sn, identifier := si }
  exact ⟨h1, h2, h3⟩

theorem pairwise_key_transfer (cfgs : List AppConfig) {B l : List AppEntry}
    (h : List.Forall₂ run2_rel B l)
    (hp : B.Pairwise (fun a b => decide (sort_key cfgs a ≤ sort_key cfgs b) = true)) :
    l.Pairwise (fun a b => decide (sort_key cfgs a ≤ sort_key cfgs b) = true) := by
  induction h with
  | nil => exact List.Pairwise.nil
  | @cons a b as bs hab htail ih =>
    cases hp with
    | cons hhead htl =>
      refine List.Pairwise.cons ?_ (ih htl)
      intro b2 hb2
      obtain ⟨a2, ha2, hr2⟩ := forall2_mem_right htail b2 hb2
      rw [run2_rel_key cfgs a b hab, run2_rel_key cfgs a2 b2 hr2]
      exact hhead a2 ha2

theorem run2_fold (o : Oracle) : ∀ (todo : List AppConfig) (B : List AppEntry)
    (S : SourceData),
    (todo.map (fun c => c.github_repo)).Nodup →
    (∀ cfg ∈ todo, good_for cfg o B) →
    List.Forall₂ run2_rel B S.apps →
    (∀ cfg ∈ todo, List.Forall₂ (fun a b => a.githubRepo = cfg.github_repo → b = a)
      B S.apps) →
    List.Forall₂ run2_rel B (run_fold o todo S).apps := by
  intro todo
  induction todo with
  | nil => intro B S _ _ hF _; exact hF
  | cons cfg rest ih =>
    intro B S hnd hgood hF hU
    rw [List.map_cons, List.nodup_cons] at hnd
    rw [run_fold_cons]
    have hcong := match_lists_congr cfg.github_repo cfg.name
      ((forall2_and hF (hU cfg (List.mem_cons_self _ _))).imp
        (fun a b hh => ⟨run2_rel_repo a b hh.1, hh.2⟩))
    rcases hgood cfg (List.mem_cons_self _ _) with ⟨E, hhead, hfix, hnn⟩ | ⟨hxm, hcnt, hsil⟩
    · obtain ⟨i, hfeB⟩ := find_exact_of_head cfg.github_repo cfg.name B E hhead
      have hfeS : find_exact cfg.github_repo cfg.name S.apps = some (i, E) := by
        rw [← hcong.1]; exact hfeB
      have hmS : match_entry cfg.github_repo cfg.name S.apps = some (i, E) := by
        simp only [match_entry, hfeS]
      have hgetS : S.apps[i]? = some E :=
        (find_exact_get cfg.github_repo cfg.name S.apps i E hfeS).1
      have hErepo : E.githubRepo = cfg.github_repo :=
        (find_exact_get cfg.github_repo cfg.name B i E hfeB).2.1
      rw [process_app_of_settled cfg o S i E hmS hnn]
      refine ih B _ hnd.2 (fun c hc2 => hgood c (List.mem_cons_of_mem _ hc2)) ?_ ?_
      · show List.Forall₂ run2_rel B (S.apps.set i (refresh_entry cfg o E))
        apply forall2_set hF i
        intro x hx
        obtain ⟨x2, hx2, hr2⟩ := forall2_get hF i E hgetS
        have hxx : x2 = x := Option.some.inj (hx2.symm.trans hx)
        subst hxx
        exact run2_rel_chain x2 E _ hr2 hfix
      · intro c hc2
        show List.Forall₂ (fun a b => a.githubRepo = c.github_repo → b = a)
          B (S.apps.set i (refresh_entry cfg o E))
        apply forall2_set (hU c (List.mem_cons_of_mem _ hc2)) i
        intro x hx hxr
        exfalso
        obtain ⟨x2, hx2, hr2⟩ := forall2_get hF i E hgetS
        have hxx : x2 = x := Option.some.inj (hx2.symm.trans hx)
        subst hxx
        have h3 : E.githubRepo = x2.githubRepo := run2_rel_repo x2 E hr2
        apply hnd.1
        have hcr : cfg.github_repo = c.github_repo := by rw [← hErepo, h3, hxr]
        rw [hcr]
        exact List.mem_map.mpr ⟨c, hc2, rfl⟩
    · have hfeS : find_exact cfg.github_repo cfg.name S.apps = none := by
        rw [← hcong.1]
        exact find_exact_of_filter_nil cfg.github_repo cfg.name B hxm
      have hmS : match_entry cfg.github_repo cfg.name S.apps = none := by
        simp only [match_entry, hfeS]
        rw [← hcong.2]
        have hlen : (repo_matches cfg.github_repo B).length ≠ 1 := by
          intro hl
          apply hcnt
          rw [← repo_matches_val, List.length_map]
          exact hl
        cases hrm : repo_matches cfg.github_repo B with
        | nil => rfl
        | cons p t =>
          cases t with
          | nil =>
            rw [hrm] at hlen
            exact absurd rfl hlen
          | cons q t2 => rfl
      rw [process_app_of_silent cfg o S hmS hsil]
      exact ih B S hnd.2 (fun c hc2 => hgood c (List.mem_cons_of_mem _ hc2)) hF
        (fun c hc2 => hU c (List.mem_cons_of_mem _ hc2))

theorem sort_le_total (cfgs : List AppConfig) : ∀ a b : AppEntry,
    decide (sort_key cfgs a ≤ sort_key cfgs b) = true ∨
    decide (sort_key cfgs b ≤ sort_key cfgs a) = true := by
  intro a b
  rcases Nat.le_total (sort_key cfgs a) (sort_key cfgs b) with h | h
  · exact Or.inl (decide_eq_true h)
  · exact Or.inr (decide_eq_true h)

theorem sort_le_trans (cfgs : List AppConfig) : ∀ a b c : AppEntry,
    decide (sort_key cfgs a ≤ sort_key cfgs b) = true →
    decide (sort_key cfgs b ≤ sort_key cfgs c) = true →
    decide (sort_key cfgs a ≤ sort_key cfgs c) = true := by
  intro a b c h1 h2
  exact decide_eq_true (Nat.le_trans (of_decide_eq_true h1) (of_decide_eq_true h2))

/-- C2: with an unchanged curated list and unchanged upstream responses, a
second `update_repo` run on the catalog the first run persisted keeps the
source name, identifier and news unchanged and maps the app list pointwise
through `run2_rel`: each entry is either byte-identical or loses only its
`permissions` object (and possibly has its icon re-selected).  The second
run is therefore NOT the identity — entries created by the first run carry
`permissions: {}` which the second run's metadata refresh pops — so the
claim's "no top-level field of any entry changes" is refuted (see the
counterexample theorem); this theorem is the corrected statement, proved
under the curated list's own invariants (distinct, non-empty repos). -/
theorem c2_reconciliation_idempotence (cfgs : List AppConfig) (o : Oracle)
    (src0 : SourceData) (sn si : Str)
    (hnd : (cfgs.map (fun c => c.github_repo)).Nodup)
    (hne : ∀ cfg ∈ cfgs, cfg.github_repo ≠ []) :
    (update_repo cfgs o (update_repo cfgs o src0 sn si).1 sn si).1.name
        = (update_repo cfgs o src0 sn si).1.name ∧
    (update_repo cfgs o (update_repo cfgs o src0 sn si).1 sn si).1.identifier
        = (update_repo cfgs o src0 sn si).1.identifier ∧
    (update_repo cfgs o (update_repo cfgs o src0 sn si).1 sn si).1.news
        = (update_repo cfgs o src0 sn si).1.news ∧
    List.Forall₂ run2_rel (update_repo cfgs o src0 sn si).1.apps
      (update_repo cfgs o (update_repo cfgs o src0 sn si).1 sn si).1.apps := by
  have hmeta1 := update_repo_meta cfgs o src0 sn si
  have hmeta2 := update_repo_meta cfgs o (update_repo cfgs o src0 sn si).1 sn si
  refine ⟨by rw [hmeta2.1, hmeta1.1], by rw [hmeta2.2.1, hmeta1.2.1], hmeta2.2.2, ?_⟩
  have hout1 := update_repo_fst cfgs o src0 sn si
  have hB : (update_repo cfgs o src0 sn si).1.apps
      = py_sorted (fun a b => decide (sort_key cfgs a ≤ sort_key cfgs b))
        ((run_fold o cfgs { src0 with name := sn, identifier := si }).apps.filter
          (prune_keep cfgs)) := by rw [hout1]
  have hGB : ∀ cfg ∈ cfgs, good_for cfg o (update_repo cfgs o src0 sn si).1.apps := by
    intro cfg hc
    rw [hB]
    exact good_transfer cfg o cfgs hc (hne cfg hc) _
      (run1_good o cfgs hnd { src0 with name := sn, identifier := si } cfg hc)
  have hBkeep : ∀ e ∈ (update_repo cfgs o src0 sn si).1.apps,
      prune_keep cfgs e = true := by
    intro e he
    rw [hB] at he
    exact List.of_mem_filter ((py_sorted_perm _ _).mem_iff.mp he)
  have hBpw : ((update_repo cfgs o src0 sn si).1.apps).Pairwise
      (fun a b => decide (sort_key cfgs a ≤ sort_key cfgs b) = true) := by
    rw [hB]
    exact py_sorted_pairwise _ (sort_le_total cfgs) (sort_le_trans cfgs) _
  have hF0 : List.Forall₂ run2_rel (update_repo cfgs o src0 sn si).1.apps
      ({ (update_repo cfgs o src0 sn si).1 with
        name := sn, identifier := si } : SourceData).apps :=
    List.forall₂_same.mpr (fun x _ => Or.inl rfl)
  have hU0 : ∀ cfg ∈ cfgs, List.Forall₂
      (fun a b => a.githubRepo = cfg.github_repo → b = a)
      (update_repo cfgs o src0 sn si).1.apps
      ({ (update_repo cfgs o src0 sn si).1 with
        name := sn, identifier := si } : SourceData).apps :=
    fun cfg _ => List.forall₂_same.mpr (fun x _ _ => rfl)
  have hfold2 := run2_fold o cfgs (update_repo cfgs o src0 sn si).1.apps
    { (update_repo cfgs o src0 sn si).1 with name := sn, identifier := si }
    hnd hGB hF0 hU0
  have hall2 : ∀ e ∈ (run_fold o cfgs { (update_repo cfgs o src0 sn si).1 with
      name := sn, identifier := si }).apps, prune_keep cfgs e = true := by
    intro e he
    obtain ⟨a, ha, hrel⟩ := forall2_mem_right hfold2 e he
    rw [run2_rel_keep cfgs a e hrel]
    exact hBkeep a ha
  have hfil2 : ((run_fold o cfgs { (update_repo cfgs o src0 sn si).1 with
      name := sn, identifier := si }).apps).filter (prune_keep cfgs)
      = (run_fold o cfgs { (update_repo cfgs o src0 sn si).1 with
        name := sn, identifier := si }).apps :=
    List.filter_eq_self.mpr hall2
  have hpw2 := pairwise_key_transfer cfgs hfold2 hBpw
  have hsort2 := py_sorted_of_pairwise
    (fun a b => decide (sort_key cfgs a ≤ sort_key cfgs b)) _ hpw2
  rw [update_repo_fst cfgs o (update_repo cfgs o src0 sn si).1 sn si]
  show List.Forall₂ run2_rel _
    (py_sorted (fun a b => decide (sort_key cfgs a ≤ sort_key cfgs b))
      (((run_fold o cfgs { (update_repo cfgs o src0 sn si).1 with
        name := sn, identifier := si }).apps).filter (prune_keep cfgs)))
  rw [hfil2, hsort2]
  exact hfold2

/-- A curated config tracking `o/r` with no overrides. -/
def cfg_c2 : AppConfig :=
  { name := ("Foo".data), github_repo := ("o/r".data), pre_release := false,
    tag_regex := none, ipa_regex := none, icon_url := none, tint_color := none }

/-- One stable release of `o/r` carrying a single `.ipa` asset. -/
def rel_c2 : Release :=
  { draft := false, prerelease := false,
    published_at := ("2024-01-01T00:00:00Z".data), tag_name := ("v1.0".data),
    body := none,
    assets := [{ name := ("app.ipa".data),
                 browser_download_url := ("https://dl/app.ipa".data), size := 5 }] }

/-- Fixed upstream responses: the release above, a downloadable asset, and
nothing else (no repo tree, no repo info, no fetchable images). -/
def oracle_c2 : Oracle :=
  { releases := fun r => if r = ("o/r".data) then some [rel_c2] else none,
    regex_valid := fun _ => false, regex_search := fun _ _ => false,
    fetch_ok := fun _ => false, decode_dims := fun _ => none,
    img_colors := fun _ => none, git_tree := fun _ => none,
    root_contents := fun _ => none, repo_info := fun _ => none,
    download := fun u => if u = ("https://dl/app.ipa".data) then
      some { meta := none, sha256 := ("ab".data) } else none }

/-- An empty starting catalog. -/
def src_c2 : SourceData :=
  { name := ("S".data), identifier := ("I".data), apps := [], news := [] }

/-- C2 counterexample: with one tracked app, one upstream release and fixed
responses, the first run creates the catalog entry (with `permissions: {}`)
and the second run pops that key during the metadata refresh, so the
persisted catalog of the second run is NOT identical to the first run's —
the original idempotence claim is false as stated. -/
theorem c2_reconciliation_idempotence_counterexample :
    (update_repo [cfg_c2] oracle_c2
        (update_repo [cfg_c2] oracle_c2 src_c2 ("S".data) ("I".data)).1
        ("S".data) ("I".data)).1
      ≠ (update_repo [cfg_c2] oracle_c2 src_c2 ("S".data) ("I".data)).1 := by
  decide

theorem c2_reconciliation_idempotence_witness :
    ((([cfg_c2].map (fun c => c.github_repo)).Nodup) ∧
      (∀ cfg ∈ [cfg_c2], cfg.github_repo ≠ [])) ∧
    List.Forall₂ run2_rel
      (update_repo [cfg_c2] oracle_c2 src_c2 ("S".data) ("I".data)).1.apps
      (update_repo [cfg_c2] oracle_c2
        (update_repo [cfg_c2] oracle_c2 src_c2 ("S".data) ("I".data)).1
        ("S".data) ("I".data)).1.apps :=
  ⟨⟨by decide, by decide⟩,
    (c2_reconciliation_idempotence [cfg_c2] oracle_c2 src_c2 ("S".data) ("I".data)
      (by decide) (by decide)).2.2.2⟩

end SrcSpec
